import Mathlib

/-!
Shallow embedding of the document engine of the `json-editor` repository
(the `features/editor/state.ts` module reachable from `App.tsx`).

Modelling conventions:
* Node identifiers are `Nat`.  The source allocates ids with `createId()`
  (a fresh UUID, never colliding with an existing id); the model threads a
  monotone counter (`nextId`) through the editor state, so a freshly
  allocated id is strictly larger than every id already in use.
* The node map `Record<string, JsonNode>` is an association list with
  JavaScript record semantics: insertion overwrites in place, deletion
  removes the key, lookup takes the first binding.
* `structuredClone` is the identity on the pure values of the model.
* Recursions of the source that walk the tree through the node map
  (`buildValue`, `removeSubtree`, `sortObject`, the search `visit`, the
  parent-map walks) are not structurally terminating on arbitrary maps, so
  they take an explicit depth bound; each call site passes
  `nodes.length + 1`, which dominates the recursion depth on every map
  whose id references form a tree, i.e. whenever the JavaScript recursion
  terminates at all.
* JavaScript numbers are modelled by `JsNumber`: a finite value (carried
  as a rational), `NaN`, or a signed infinity.
* `JSON.stringify`, `JSON.parse` and `localeCompare` are external
  boundaries: serialization is modelled by a concrete total serializer,
  parsing by an oracle argument producing the parsed value or an error
  message with an optional reported position, and `localeCompare` by the
  lexicographic total order on strings (the proofs use only that it is a
  total, transitive comparison).
-/

namespace JE

/-- Model of a JavaScript number: finite (as a rational), NaN, or ±Infinity. -/
inductive JsNumber where
  | finite (q : Rat)
  | nan
  | inf
  | negInf
deriving DecidableEq

/-- A plain nested JSON-like value, the shape produced by the parse boundary
and consumed by `buildDocumentFromValue` / produced by `documentToJson`. -/
inductive JsonValue where
  | obj (entries : List (String × JsonValue))
  | arr (items : List JsonValue)
  | str (s : String)
  | num (n : JsNumber)
  | bool (b : Bool)
  | null

/-- One node of the flat store, mirroring the `JsonNode` union of the source:
each node carries its own id and either child references or a scalar payload. -/
inductive JsonNode where
  | obj (id : Nat) (entries : List (String × Nat))
  | arr (id : Nat) (items : List Nat)
  | str (id : Nat) (value : String)
  | num (id : Nat) (value : JsNumber)
  | bool (id : Nat) (value : Bool)
  | null (id : Nat)
deriving DecidableEq

/-- The stored id field of a node (`node.id` in the source). -/
def JsonNode.nid : JsonNode → Nat
  | .obj i _ => i
  | .arr i _ => i
  | .str i _ => i
  | .num i _ => i
  | .bool i _ => i
  | .null i => i

/-- The child ids referenced by a node (object entry targets or array items). -/
def refsOf : JsonNode → List Nat
  | .obj _ es => es.map Prod.snd
  | .arr _ its => its
  | _ => []

/-- Is the node an object or an array (a container)? -/
def isContainer : JsonNode → Bool
  | .obj _ _ => true
  | .arr _ _ => true
  | _ => false

/-- Is the node an object? -/
def isObjNode : JsonNode → Bool
  | .obj _ _ => true
  | _ => false

/-- The node map `Record<string, JsonNode>`, as an association list. -/
abbrev NodeMap := List (Nat × JsonNode)

/-- Record lookup: first binding of the key. -/
def lookupN (m : NodeMap) (k : Nat) : Option JsonNode :=
  match m with
  | [] => none
  | (k', v') :: t => if k' = k then some v' else lookupN t k

/-- Record write `m[k] = v`: overwrite in place if present, else append. -/
def insertN (m : NodeMap) (k : Nat) (v : JsonNode) : NodeMap :=
  match m with
  | [] => [(k, v)]
  | (k', v') :: t => if k' = k then (k, v) :: t else (k', v') :: insertN t k v

/-- Record deletion `delete m[k]`. -/
def eraseN (m : NodeMap) (k : Nat) : NodeMap :=
  match m with
  | [] => []
  | (k', v') :: t => if k' = k then eraseN t k else (k', v') :: eraseN t k

/-- The keys of the node map. -/
def keysN (m : NodeMap) : List Nat :=
  m.map Prod.fst

/-- `DocumentState`: root id plus flat node map. -/
structure DocumentState where
  rootId : Nat
  nodes : NodeMap
deriving DecidableEq

/-- A parse error surfaced by the parse boundary (1-based line/column when
derivable from the reported position). -/
structure ParseError where
  message : String
  line : Option Nat
  column : Option Nat
deriving DecidableEq

/-- Notice severity, mirroring `'success' | 'error' | 'info'`. -/
inductive NoticeKind where
  | success
  | error
  | info
deriving DecidableEq

/-- A user-facing notice. -/
structure Notice where
  kind : NoticeKind
  message : String
deriving DecidableEq

/-- One history entry: the full pre-mutation snapshot stored on the
undo/redo stacks. -/
structure HistoryEntry where
  doc : Option DocumentState
  rawText : String
  expanded : List Nat
  selectedId : Option Nat
  preSearchExpanded : Option (List Nat)
  anchorPath : List Nat
deriving DecidableEq

/-- Output display mode. -/
inductive OutputMode where
  | pretty
  | minified
deriving DecidableEq

/-- The node type tag used by `ADD_NODE` and `EDIT_PRIMITIVE`. -/
inductive NodeType where
  | obj
  | arr
  | str
  | num
  | bool
  | null
deriving DecidableEq

/-- The `parentType` argument of `ADD_NODE` (`'object' | 'array'`). -/
inductive ParentKind where
  | obj
  | arr
deriving DecidableEq

/-- The scope of `SORT_KEYS` (`'selected' | 'all'`). -/
inductive SortScope where
  | selected
  | all
deriving DecidableEq

/-- The primitive value carried by an `EDIT_PRIMITIVE` action
(`string | number | boolean | null`). -/
inductive JsPrim where
  | str (s : String)
  | num (n : JsNumber)
  | bool (b : Bool)
  | null
deriving DecidableEq

/-- The editor state.  The snippet-library fields and persistence flags of
the source that no modelled action reads or writes are omitted; `nextId`
is the id-supply counter modelling `createId` (every id in use is below
it). -/
structure EditorState where
  rawText : String
  lastValidText : String
  doc : Option DocumentState
  parseError : Option ParseError
  expanded : List Nat
  selectedId : Option Nat
  searchQuery : String
  searchMatches : List Nat
  activeMatch : Int
  searchFilterOnly : Bool
  outputMode : OutputMode
  indent : Nat
  undoStack : List HistoryEntry
  redoStack : List HistoryEntry
  autoParse : Bool
  autoSaveEnabled : Bool
  notice : Option Notice
  preSearchExpanded : Option (List Nat)
  anchorPath : List Nat
  nextId : Nat
deriving DecidableEq

/-- ASCII lower-casing of one character, modelling `toLowerCase` on the
character range the engine compares. -/
def lowerChar (c : Char) : Char :=
  if 65 ≤ c.toNat ∧ c.toNat ≤ 90 then Char.ofNat (c.toNat + 32) else c

/-- `String.prototype.trim`. -/
def trimS (s : String) : String :=
  ⟨((s.data.dropWhile Char.isWhitespace).reverse.dropWhile Char.isWhitespace).reverse⟩

/-- `String.prototype.toLowerCase`. -/
def toLowerS (s : String) : String := ⟨s.data.map lowerChar⟩

/-- Does `hay` start with `needle`? -/
def startsWithL (needle hay : List Char) : Bool :=
  match needle, hay with
  | [], _ => true
  | _ :: _, [] => false
  | a :: as, b :: bs => a = b && startsWithL as bs

/-- `hay.includes(needle)`: substring containment on character lists. -/
def subL (needle hay : List Char) : Bool :=
  match hay with
  | [] => startsWithL needle []
  | _ :: t => startsWithL needle hay || subL needle t

/-- Case-insensitive inclusion used by the search engine:
`hay.toLowerCase().includes(lowerNeedle)` where `lowerNeedle` is already
lower-cased. -/
def includesLower (lowerNeedle : List Char) (hay : String) : Bool :=
  subL lowerNeedle (toLowerS hay).data

/-- Lexicographic comparison of character lists by code point, the total
order modelling the `localeCompare`-based comparator.  The proofs rely only
on its totality and transitivity. -/
def leChars (a b : List Char) : Bool :=
  match a, b with
  | [], _ => true
  | _ :: _, [] => false
  | x :: xs, y :: ys => if x.toNat = y.toNat then leChars xs ys else decide (x.toNat < y.toNat)

/-- `String(value)` for a JavaScript number. -/
def JsNumber.render : JsNumber → String
  | .finite q => if q.den = 1 then toString q.num else toString q
  | .nan => "NaN"
  | .inf => "Infinity"
  | .negInf => "-Infinity"

/-- The stringified scalar value used by the search engine:
`node.type === 'null' ? 'null' : String(node.value)`. -/
def scalarString : JsonNode → String
  | .str _ s => s
  | .num _ n => n.render
  | .bool _ b => if b then "true" else "false"
  | _ => "null"

/-- The left brace as a one-character string. -/
def obrace : String := ⟨[Char.ofNat 123]⟩

/-- The right brace as a one-character string. -/
def cbrace : String := ⟨[Char.ofNat 125]⟩

/-- The double quote as a one-character string. -/
def dquote : String := ⟨[Char.ofNat 34]⟩

/-- Comma-join a list of rendered fragments. -/
def commaJoin : List String → String
  | [] => ""
  | [s] => s
  | s :: t => s ++ "," ++ commaJoin t

/-- A JSON string literal (escaping is a serializer-boundary detail the
engine never observes; the model renders the raw characters). -/
def strLit (s : String) : String := dquote ++ s ++ dquote

/-- A JSON number literal; `JSON.stringify` renders non-finite numbers as
`null`. -/
def numLit : JsNumber → String
  | .finite q => if q.den = 1 then toString q.num else toString q
  | _ => "null"

mutual

/-- Modelled from the spec: the serialize boundary `format`/`minify`
(`JSON.stringify`), pure and total over any value the node store produces.
The model renders without indentation whitespace; the engine only re-derives
and compares this text, never inspects it. -/
def stringifyV : JsonValue → String
  | .obj es => obrace ++ commaJoin (stringifyEntries es) ++ cbrace
  | .arr vs => "[" ++ commaJoin (stringifyItems vs) ++ "]"
  | .str s => strLit s
  | .num n => numLit n
  | .bool b => if b then "true" else "false"
  | .null => "null"

/-- Rendered `key: value` fragments of an object. -/
def stringifyEntries : List (String × JsonValue) → List String
  | [] => []
  | (k, v) :: t => (strLit k ++ ":" ++ stringifyV v) :: stringifyEntries t

/-- Rendered element fragments of an array. -/
def stringifyItems : List JsonValue → List String
  | [] => []
  | v :: t => stringifyV v :: stringifyItems t

end

/-- `formatJson(value, indent)`: the pretty serializer boundary.  The indent
width only affects whitespace, which the model does not render. -/
def formatJson (v : JsonValue) (_indent : Nat) : String := stringifyV v

/-- `minifyJson(value)`. -/
def minifyJson (v : JsonValue) : String := stringifyV v

mutual

/-- `buildNode(value, nodes)`: allocates the id `c` for this value, builds
the children on the ids above it, stores the node, and returns
`(id, nodes', next free id)`. -/
def buildNode : JsonValue → NodeMap → Nat → Nat × NodeMap × Nat
  | .arr items, nodes, c =>
      let r := buildNodeList items nodes (c + 1)
      (c, insertN r.2.1 c (.arr c r.1), r.2.2)
  | .null, nodes, c => (c, insertN nodes c (.null c), c + 1)
  | .obj es, nodes, c =>
      let r := buildNodeEntries es nodes (c + 1)
      (c, insertN r.2.1 c (.obj c r.1), r.2.2)
  | .num n, nodes, c => (c, insertN nodes c (.num c n), c + 1)
  | .bool b, nodes, c => (c, insertN nodes c (.bool c b), c + 1)
  | .str s, nodes, c => (c, insertN nodes c (.str c s), c + 1)

/-- `value.map((item) => buildNode(item, nodes))` for array elements. -/
def buildNodeList : List JsonValue → NodeMap → Nat → List Nat × NodeMap × Nat
  | [], nodes, c => ([], nodes, c)
  | v :: vs, nodes, c =>
      let r1 := buildNode v nodes c
      let r2 := buildNodeList vs r1.2.1 r1.2.2
      (r1.1 :: r2.1, r2.2)

/-- `Object.entries(value).map(([key, child]) => ...)` for object entries. -/
def buildNodeEntries : List (String × JsonValue) → NodeMap → Nat → List (String × Nat) × NodeMap × Nat
  | [], nodes, c => ([], nodes, c)
  | (k, v) :: es, nodes, c =>
      let r1 := buildNode v nodes c
      let r2 := buildNodeEntries es r1.2.1 r1.2.2
      ((k, r1.1) :: r2.1, r2.2)

end

/-- `buildDocumentFromValue(value)`: fresh store, root built first; the
model also returns the advanced id counter. -/
def buildDocumentFromValue (v : JsonValue) (c : Nat) : DocumentState × Nat :=
  let r := buildNode v [] c
  (⟨r.1, r.2.1⟩, r.2.2)

/-- `buildValue(doc, nodeId)` with an explicit depth bound.  A missing child
id yields `null` exactly as in the source; the bound only cuts recursions
that do not terminate in JavaScript either (cyclic id references). -/
def buildValueM (fuel : Nat) (m : NodeMap) (nodeId : Nat) : JsonValue :=
  match fuel with
  | 0 => .null
  | fuel + 1 =>
    match lookupN m nodeId with
    | none => .null
    | some (.obj _ entries) => .obj (entries.map (fun e => (e.1, buildValueM fuel m e.2)))
    | some (.arr _ items) => .arr (items.map (fun i => buildValueM fuel m i))
    | some (.str _ s) => .str s
    | some (.num _ n) => .num n
    | some (.bool _ b) => .bool b
    | some (.null _) => .null

/-- `documentToJson(doc)`. -/
def documentToJson (doc : DocumentState) : JsonValue :=
  buildValueM (doc.nodes.length + 1) doc.nodes doc.rootId

/-- `Set.prototype.add`: append if not already present (insertion order). -/
def setAdd (l : List Nat) (x : Nat) : List Nat :=
  if x ∈ l then l else l ++ [x]

/-- `new Set(list)`: dedupe keeping first occurrences. -/
def mkSet (l : List Nat) : List Nat :=
  l.foldl setAdd []

/-- `list[i]` for a possibly negative JavaScript index. -/
def listAt (l : List Nat) (i : Int) : Option Nat :=
  if i < 0 then none else l[i.toNat]?

/-- `list.indexOf(x)`: first position, `-1` when absent. -/
def idxOf (l : List Nat) (x : Nat) : Int :=
  match l.indexOf? x with
  | some n => (n : Int)
  | none => -1

/-- `snapshotState(state)`: the full pre-mutation snapshot pushed on the
history stacks (`structuredClone` is the identity on the pure model). -/
def snapshotState (s : EditorState) : HistoryEntry :=
  { doc := s.doc
    rawText := s.rawText
    expanded := s.expanded
    selectedId := s.selectedId
    preSearchExpanded := s.preSearchExpanded
    anchorPath := s.anchorPath }

/-- `buildParentMap(doc)` as a lookup function: the last node in store
order that references `child` wins, exactly as repeated record writes do. -/
def buildParentMap (m : NodeMap) : Nat → Option Nat := fun child =>
  m.foldl (fun acc kv => if child ∈ refsOf kv.2 then some kv.2.nid else acc) none

/-- `expandAncestors`: walk parent links from `targetId` upward, adding
every visited id to the expansion set. -/
def expandAncestors (fuel : Nat) (parents : Nat → Option Nat) (targetId : Nat)
    (expanded : List Nat) : List Nat :=
  match fuel with
  | 0 => expanded
  | fuel + 1 =>
    let expanded := setAdd expanded targetId
    match parents targetId with
    | none => expanded
    | some p => expandAncestors fuel parents p expanded

/-- `collectSubtreeIds(doc, rootId, bucket)`. -/
def collectSubtreeIds (fuel : Nat) (m : NodeMap) (rootId : Nat) (bucket : List Nat) : List Nat :=
  match fuel with
  | 0 => bucket
  | fuel + 1 =>
    match lookupN m rootId with
    | none => bucket
    | some node =>
      let bucket := setAdd bucket rootId
      (refsOf node).foldl (fun b c => collectSubtreeIds fuel m c b) bucket

/-- The upward walk of `buildAnchorPath` (`while (current) ...`). -/
def walkUp (fuel : Nat) (parents : Nat → Option Nat) (current : Nat) (acc : List Nat) : List Nat :=
  match fuel with
  | 0 => acc
  | fuel + 1 =>
    let acc := acc ++ [current]
    match parents current with
    | none => acc
    | some p => walkUp fuel parents p acc

/-- `buildAnchorPath(doc, targetId)`: root-to-target id chain, or `[]` when
the walk does not reach the document root. -/
def buildAnchorPath (doc : DocumentState) (targetId : Nat) : List Nat :=
  let parents := buildParentMap doc.nodes
  let path := walkUp (doc.nodes.length + 1) parents targetId []
  let result := path.reverse
  if result.head? = some doc.rootId then result else []

/-- `resolveAnchorPath(doc, anchorPath)`. -/
def resolveAnchorPath (doc : DocumentState) (anchorPath : List Nat) : List Nat :=
  match anchorPath.getLast? with
  | none => [doc.rootId]
  | some targetId =>
    let path := buildAnchorPath doc targetId
    if path.length ≠ 0 then path else [doc.rootId]

/-- The depth-first `visit` of `findSearchMatches`: object entries in
order — a key match records the child id before descending — then array
items in order; scalar nodes match on their stringified value. -/
def findVisit (fuel : Nat) (m : NodeMap) (lowerQ : List Char) (nodeId : Nat)
    (found : List Nat) : List Nat :=
  match fuel with
  | 0 => found
  | fuel + 1 =>
    match lookupN m nodeId with
    | none => found
    | some (.obj _ entries) =>
      entries.foldl
        (fun acc e =>
          let acc := if subL lowerQ (toLowerS e.1).data then acc ++ [e.2] else acc
          findVisit fuel m lowerQ e.2 acc)
        found
    | some (.arr _ items) =>
      items.foldl (fun acc i => findVisit fuel m lowerQ i acc) found
    | some node =>
      if subL lowerQ (toLowerS (scalarString node)).data then found ++ [node.nid]
      else found

/-- `findSearchMatches(doc, query, rootId)`. -/
def findSearchMatches (doc : DocumentState) (query : String) (rootId : Nat) : List Nat :=
  findVisit (doc.nodes.length + 1) doc.nodes (toLowerS query).data rootId []

/-- `applySearch(state, docOverride?, anchorOverride?)`. -/
def applySearch (state : EditorState) (docOverride : Option DocumentState)
    (anchorOverride : Option (List Nat)) : EditorState :=
  match docOverride.orElse (fun _ => state.doc) with
  | none =>
    { state with searchMatches := [], activeMatch := -1,
                 anchorPath := anchorOverride.getD state.anchorPath }
  | some doc =>
    if trimS state.searchQuery = "" then
      { state with searchMatches := [], activeMatch := -1,
                   anchorPath := anchorOverride.getD state.anchorPath }
    else
      let anchorPath := anchorOverride.getD state.anchorPath
      let anchorRoot := anchorPath.getLast?.getD doc.rootId
      let found := findSearchMatches doc (trimS state.searchQuery) anchorRoot
      let nextActiveIndex : Int :=
        match listAt state.searchMatches state.activeMatch with
        | some currentActiveId => idxOf found currentActiveId
        | none => -1
      let activeMatch : Int :=
        if 0 ≤ nextActiveIndex then nextActiveIndex
        else if found.length ≠ 0 then 0 else -1
      let parents := buildParentMap doc.nodes
      let expanded :=
        match listAt found activeMatch with
        | some activeId => expandAncestors (doc.nodes.length + 1) parents activeId state.expanded
        | none => state.expanded
      let expanded := anchorPath.foldl setAdd expanded
      { state with searchMatches := found, activeMatch := activeMatch,
                   expanded := expanded, anchorPath := anchorPath }

/-- `withHistory(state, next, push)`: push the pre-mutation snapshot onto a
50-bounded undo stack and clear redo. -/
def withHistory (state next : EditorState) (push : Bool) : EditorState :=
  if push then
    { next with undoStack := (snapshotState state :: state.undoStack).take 50, redoStack := [] }
  else next

/-- `finalizeDocumentChange(state, doc, focusId)`: re-derive the text
mirror, re-validate the anchor path, re-run the search, push history. -/
def finalizeDocumentChange (state : EditorState) (doc : DocumentState)
    (focusId : Option Nat) : EditorState :=
  let formatted := formatJson (documentToJson doc) state.indent
  let nextAnchorPath := resolveAnchorPath doc state.anchorPath
  let base := applySearch
    { state with
      doc := some doc
      rawText := formatted
      lastValidText := formatted
      parseError := none
      selectedId := focusId.orElse (fun _ => state.selectedId)
      preSearchExpanded := state.preSearchExpanded
      anchorPath := nextAnchorPath }
    (some doc) (some nextAnchorPath)
  withHistory state base true

/-- The freshly allocated node of `ADD_NODE`'s `switch (newType)`. -/
def defaultNode (id : Nat) : NodeType → JsonNode
  | .obj => .obj id []
  | .arr => .arr id []
  | .str => .str id ""
  | .num => .num id (.finite 0)
  | .bool => .bool id false
  | .null => .null id

/-- `addNodeToDocument(state, parentId, parentType, key, newType)`.  The
fresh id `createId()` is `state.nextId`. -/
def addNodeToDocument (state : EditorState) (parentId : Nat) (parentType : ParentKind)
    (key : Option String) (newType : NodeType) : EditorState :=
  match state.doc with
  | none => state
  | some doc =>
    match lookupN doc.nodes parentId with
    | none => state
    | some parent =>
      match parentType with
      | .obj =>
        match parent with
        | .obj pid entries =>
          match key with
          | none => { state with notice := some ⟨.error, "Key is required for object properties."⟩ }
          | some k =>
            if trimS k = "" then
              { state with notice := some ⟨.error, "Key is required for object properties."⟩ }
            else if entries.any (fun e => e.1 = trimS k) then
              { state with notice := some ⟨.error, "Duplicate key inside this object."⟩ }
            else
              let childId := state.nextId
              let m1 := insertN doc.nodes childId (defaultNode childId newType)
              let m2 := insertN m1 parentId (.obj pid (entries ++ [(trimS k, childId)]))
              finalizeDocumentChange { state with nextId := state.nextId + 1 }
                { doc with nodes := m2 } (some childId)
        | _ => state
      | .arr =>
        match parent with
        | .arr pid items =>
          let childId := state.nextId
          let m1 := insertN doc.nodes childId (defaultNode childId newType)
          let m2 := insertN m1 parentId (.arr pid (items ++ [childId]))
          finalizeDocumentChange { state with nextId := state.nextId + 1 }
            { doc with nodes := m2 } (some childId)
        | _ => state

/-- The in-place `parent.entries = parent.entries.filter(...)` /
`parent.items = parent.items.filter(...)` of `deleteNode`. -/
def stripChildRef (p : JsonNode) (childId : Nat) : JsonNode :=
  match p with
  | .obj i es => .obj i (es.filter (fun e => e.2 ≠ childId))
  | .arr i its => .arr i (its.filter (fun c => c ≠ childId))
  | x => x

/-- The recursive `removeSubtree` of `deleteNode`: children first (from the
node's own reference list, read before recursing), then the node's key. -/
def removeSubtree (fuel : Nat) (m : NodeMap) (id : Nat) : NodeMap :=
  match fuel with
  | 0 => m
  | fuel + 1 =>
    match lookupN m id with
    | none => m
    | some node =>
      let m := (refsOf node).foldl (fun acc c => removeSubtree fuel acc c) m
      eraseN m id

/-- `deleteNode(state, parentId, childId)`.  The parent node is read before
the subtree removal; its in-place filter is visible only if its key
survived the removal (it always does on a tree). -/
def deleteNode (state : EditorState) (parentId childId : Nat) : EditorState :=
  match state.doc with
  | none => state
  | some doc =>
    match lookupN doc.nodes parentId with
    | none => state
    | some parent =>
      let m1 := removeSubtree (doc.nodes.length + 1) doc.nodes childId
      let m2 :=
        if (lookupN m1 parentId).isSome then insertN m1 parentId (stripChildRef parent childId)
        else m1
      finalizeDocumentChange state { doc with nodes := m2 } (some parentId)

/-- `moveArrayItem(state, parentId, childId, direction)`. -/
def moveArrayItem (state : EditorState) (parentId childId : Nat) (direction : Int) : EditorState :=
  match state.doc with
  | none => state
  | some doc =>
    match lookupN doc.nodes parentId with
    | some (.arr pid items) =>
      match items.indexOf? childId with
      | none => state
      | some index =>
        let target : Int := (index : Int) + direction
        if target < 0 ∨ (items.length : Int) ≤ target then state
        else
          let moved := items.eraseIdx index
          let items' := moved.insertIdx target.toNat childId
          finalizeDocumentChange state
            { doc with nodes := insertN doc.nodes parentId (.arr pid items') } (some childId)
    | _ => state

/-- Rename the key of the first entry pointing at `childId`
(`entries.find(...)` then in-place `target.key = trimmed`). -/
def renameEntry (es : List (String × Nat)) (childId : Nat) (newKey : String) : List (String × Nat) :=
  match es with
  | [] => []
  | e :: t => if e.2 = childId then (newKey, e.2) :: t else e :: renameEntry t childId newKey

/-- `renameKey(state, parentId, childId, newKey)`. -/
def renameKey (state : EditorState) (parentId childId : Nat) (newKey : String) : EditorState :=
  match state.doc with
  | none => state
  | some doc =>
    let trimmed := trimS newKey
    if trimmed = "" then
      { state with notice := some ⟨.error, "Key cannot be empty."⟩ }
    else
      match lookupN doc.nodes parentId with
      | some (.obj pid entries) =>
        if entries.any (fun e => e.1 = trimmed ∧ e.2 ≠ childId) then
          { state with notice := some ⟨.error, "Keys must be unique within the object."⟩ }
        else if entries.all (fun e => e.2 ≠ childId) then state
        else
          finalizeDocumentChange state
            { doc with nodes := insertN doc.nodes parentId (.obj pid (renameEntry entries childId trimmed)) }
            (some childId)
      | _ => state

/-- The current type tag of a scalar node. -/
def typeOfNode : JsonNode → NodeType
  | .obj _ _ => .obj
  | .arr _ _ => .arr
  | .str _ _ => .str
  | .num _ _ => .num
  | .bool _ _ => .bool
  | .null _ => .null

/-- `String(value ?? '')`. -/
def strOfPrim : JsPrim → String
  | .str s => s
  | .num n => n.render
  | .bool b => if b then "true" else "false"
  | .null => ""

/-- `Boolean(value)`. -/
def boolOfPrim : JsPrim → Bool
  | .str s => s ≠ ""
  | .num (.finite q) => q ≠ 0
  | .num .nan => false
  | .num _ => true
  | .bool b => b
  | .null => false

/-- `editPrimitive(state, nodeId, value, newType)`.  The numeric guard is
exactly the source's `typeof value !== 'number' || Number.isNaN(value)`. -/
def editPrimitive (state : EditorState) (nodeId : Nat) (value : JsPrim)
    (newType : Option NodeType) : EditorState :=
  match state.doc with
  | none => state
  | some doc =>
    match lookupN doc.nodes nodeId with
    | none => state
    | some node =>
      if isContainer node then state
      else
        let commit := fun (nn : JsonNode) =>
          finalizeDocumentChange state { doc with nodes := insertN doc.nodes nodeId nn }
            (some nodeId)
        match newType.getD (typeOfNode node) with
        | .str => commit (.str nodeId (strOfPrim value))
        | .num =>
          match value with
          | .num n =>
            if n = .nan then
              { state with notice := some ⟨.error, "Numbers must be valid JSON numbers."⟩ }
            else commit (.num nodeId n)
          | _ => { state with notice := some ⟨.error, "Numbers must be valid JSON numbers."⟩ }
        | .bool => commit (.bool nodeId (boolOfPrim value))
        | .null => commit (.null nodeId)
        | _ => commit node

/-- The comparator of `entries.sort((a, b) => a.key.localeCompare(b.key))`,
modelled by the lexicographic total order on keys. -/
def entryLe (a b : String × Nat) : Bool := leChars a.1.data b.1.data

/-- The stable sort of one object's entry list by key. -/
def sortEntries (es : List (String × Nat)) : List (String × Nat) := es.mergeSort entryLe

/-- The recursive `sortObject` of `sortKeys`: sort this object's entries,
then recurse into the children in their new order; arrays recurse without
reordering. -/
def sortGo (fuel : Nat) (m : NodeMap) (id : Nat) : NodeMap :=
  match fuel with
  | 0 => m
  | fuel + 1 =>
    match lookupN m id with
    | some (.obj i es) =>
      let es' := sortEntries es
      let m := insertN m id (.obj i es')
      es'.foldl (fun acc e => sortGo fuel acc e.2) m
    | some (.arr _ its) => its.foldl (fun acc c => sortGo fuel acc c) m
    | _ => m

/-- `sortKeys(state, scope)`. -/
def sortKeys (state : EditorState) (scope : SortScope) : EditorState :=
  match state.doc with
  | none => state
  | some doc =>
    let fuel := doc.nodes.length + 1
    let m :=
      match scope with
      | .all => sortGo fuel doc.nodes doc.rootId
      | .selected =>
        match state.selectedId with
        | some sid => sortGo fuel doc.nodes sid
        | none => doc.nodes
    finalizeDocumentChange state { doc with nodes := m } state.selectedId

/-- The outcome of the `JSON.parse` boundary: the parsed value, or the
thrown error's message together with the character position extracted from
it (the `position (\d+)` match), when present. -/
inductive ParseOutcome where
  | ok (v : JsonValue)
  | err (message : String) (position : Option Nat)

/-- The parse boundary as a function of the input text. -/
abbrev ParseFn := String → ParseOutcome

/-- `text.split('\n')` on a character-list prefix; always non-empty. -/
def splitNl : List Char → List (List Char)
  | [] => [[]]
  | c :: t =>
    match splitNl t with
    | [] => [[]]
    | l :: ls => if c = '\n' then [] :: l :: ls else (c :: l) :: ls

/-- `getLineColumn(text, index)`: 1-based line and column of a character
position. -/
def getLineColumn (text : String) (index : Nat) : Nat × Nat :=
  let before := text.data.take index
  let lines := splitNl before
  (lines.length, (lines.getLastD []).length + 1)

/-- `parseJson(text)` over the parse boundary: attach 1-based line/column
when the thrown message carried a position. -/
def parseJson (po : ParseFn) (text : String) : Except ParseError JsonValue :=
  match po text with
  | .ok v => .ok v
  | .err msg pos =>
    match pos with
    | some idx =>
      let lc := getLineColumn text idx
      .error ⟨msg, some lc.1, some lc.2⟩
    | none => .error ⟨msg, none, none⟩

/-- `applyParse(state, text)`. -/
def applyParse (po : ParseFn) (state : EditorState) (text : String) : EditorState :=
  match parseJson po text with
  | .error e => { state with parseError := some e }
  | .ok v =>
    let r := buildDocumentFromValue v state.nextId
    let doc := r.1
    let formatted := formatJson v state.indent
    let base := { state with
      doc := some doc
      parseError := none
      rawText := formatted
      lastValidText := formatted
      expanded := [doc.rootId]
      selectedId := some doc.rootId
      anchorPath := [doc.rootId]
      preSearchExpanded := if trimS state.searchQuery ≠ "" then some [doc.rootId] else none
      nextId := r.2 }
    let withSearch := applySearch base (some doc) (some [doc.rootId])
    withHistory state withSearch true

/-- The modelled subset of the action surface: the structural mutations,
parse/load, search-query changes, and undo/redo.  The remaining actions of
the source touch only selection/expansion UI state, display options, or the
snippet/persistence boundary. -/
inductive Action where
  | setRawText (text : String)
  | parseText
  | loadText (text : String)
  | editPrim (nodeId : Nat) (value : JsPrim) (newType : Option NodeType)
  | renameK (parentId childId : Nat) (newKey : String)
  | addN (parentId : Nat) (parentType : ParentKind) (key : Option String) (newType : NodeType)
  | deleteN (parentId childId : Nat)
  | setSearchQuery (query : String)
  | sortK (scope : SortScope)
  | moveItem (parentId childId : Nat) (direction : Int)
  | undo
  | redo

/-- `editorReducer(state, action)` over the modelled actions, parameterised
by the parse boundary. -/
def editorReducer (po : ParseFn) (state : EditorState) (a : Action) : EditorState :=
  match a with
  | .setRawText text =>
    let next := { state with rawText := text, parseError := none }
    if state.autoParse then applyParse po next text else next
  | .parseText => applyParse po state state.rawText
  | .loadText text => applyParse po state text
  | .editPrim nodeId value newType => editPrimitive state nodeId value newType
  | .renameK p c nk => renameKey state p c nk
  | .addN p pt k t => addNodeToDocument state p pt k t
  | .deleteN p c => deleteNode state p c
  | .setSearchQuery query =>
    let entering := trimS state.searchQuery = "" ∧ trimS query ≠ ""
    let clearing := trimS state.searchQuery ≠ "" ∧ trimS query = ""
    let pse := if entering then some state.expanded else state.preSearchExpanded
    let pair :=
      if clearing then
        match state.preSearchExpanded with
        | some ps => (mkSet ps, (none : Option (List Nat)))
        | none => (state.expanded, pse)
      else (state.expanded, pse)
    let next := { state with searchQuery := query, expanded := pair.1, preSearchExpanded := pair.2 }
    applySearch next none none
  | .sortK sc => sortKeys state sc
  | .moveItem p c d => moveArrayItem state p c d
  | .undo =>
    match state.undoStack with
    | [] => state
    | previous :: remaining =>
      let redoEntry := snapshotState state
      let restored := { state with
        doc := previous.doc
        rawText := previous.rawText
        expanded := mkSet previous.expanded
        selectedId := previous.selectedId
        anchorPath := previous.anchorPath
        undoStack := remaining
        redoStack := (redoEntry :: state.redoStack).take 50
        parseError := none
        preSearchExpanded := previous.preSearchExpanded.map mkSet }
      applySearch restored restored.doc (some restored.anchorPath)
  | .redo =>
    match state.redoStack with
    | [] => state
    | nextEntry :: remaining =>
      let undoEntry := snapshotState state
      let restored := { state with
        doc := nextEntry.doc
        rawText := nextEntry.rawText
        expanded := mkSet nextEntry.expanded
        selectedId := nextEntry.selectedId
        anchorPath := nextEntry.anchorPath
        redoStack := remaining
        undoStack := (undoEntry :: state.undoStack).take 50
        parseError := none
        preSearchExpanded := nextEntry.preSearchExpanded.map mkSet }
      applySearch restored restored.doc (some restored.anchorPath)

mutual

/-- The nesting height of a value: recursion depth `buildValue` needs. -/
def heightV : JsonValue → Nat
  | .obj es => heightEntries es + 1
  | .arr vs => heightItems vs + 1
  | _ => 1

/-- Maximum height over array items. -/
def heightItems : List JsonValue → Nat
  | [] => 0
  | v :: t => max (heightV v) (heightItems t)

/-- Maximum height over object entries. -/
def heightEntries : List (String × JsonValue) → Nat
  | [] => 0
  | e :: t => max (heightV e.2) (heightEntries t)

end

mutual

/-- The number of nodes `buildNode` allocates for a value. -/
def sizeV : JsonValue → Nat
  | .obj es => sizeEntries es + 1
  | .arr vs => sizeItems vs + 1
  | _ => 1

/-- Total size over array items. -/
def sizeItems : List JsonValue → Nat
  | [] => 0
  | v :: t => sizeV v + sizeItems t

/-- Total size over object entries. -/
def sizeEntries : List (String × JsonValue) → Nat
  | [] => 0
  | e :: t => sizeV e.2 + sizeEntries t

end

/-- A spanning tree of ids: the witness that a region of the node map is a
strict tree (the shape the document invariants of the spec guarantee). -/
inductive DTree where
  | branch (id : Nat) (children : List DTree)
  | leaf (id : Nat)

/-- The root id of a spanning tree. -/
def DTree.root : DTree → Nat
  | .branch i _ => i
  | .leaf i => i

mutual

/-- All ids of a spanning tree, root first. -/
def idsOf : DTree → List Nat
  | .branch i cs => i :: idsOfL cs
  | .leaf i => [i]

/-- All ids of a forest. -/
def idsOfL : List DTree → List Nat
  | [] => []
  | t :: ts => idsOf t ++ idsOfL ts

end

mutual

/-- Does the spanning tree describe the node map at its root: the root id
resolves to a container whose child references are exactly the children's
roots (up to order), children matching recursively; a `leaf` resolves to a
scalar node. -/
def matchesB (m : NodeMap) : DTree → Bool
  | .branch i cs =>
    match lookupN m i with
    | some n => isContainer n && (refsOf n).isPerm (cs.map DTree.root) && matchesL m cs
    | none => false
  | .leaf i =>
    match lookupN m i with
    | some n => !isContainer n
    | none => false

/-- `matchesB` over a forest. -/
def matchesL (m : NodeMap) : List DTree → Bool
  | [] => true
  | t :: ts => matchesB m t && matchesL m ts

end

/-- Lookup in the (optional) document of a state. -/
def docLookup (s : EditorState) (k : Nat) : Option JsonNode :=
  match s.doc with
  | none => none
  | some d => lookupN d.nodes k

/-- Is `c` one of the child references of `p`? -/
def childRefB (p : JsonNode) (c : Nat) : Bool := c ∈ refsOf p

/-- Do all references into the id set `tIds` come from the single entry
`parentId → childId`?  (The no-shared-children part of the tree invariant,
restricted to what the cascading-delete claim needs.) -/
def onlyRefB (m : NodeMap) (tIds : List Nat) (parentId childId : Nat) : Bool :=
  m.all (fun kv =>
    kv.1 ∈ tIds ||
      (refsOf kv.2).all (fun r => r ∉ tIds || (kv.1 = parentId && r = childId)))

/-- The per-node effect of `sortKeys`: objects get their entries stably
sorted by key, every other node is untouched. -/
def sortNode1 : JsonNode → JsonNode
  | .obj i es => .obj i (sortEntries es)
  | x => x

/-- Per-node well-formedness for the key-uniqueness claim: object keys
pairwise distinct and object child references pairwise distinct. -/
def nodeOkB (n : JsonNode) : Bool :=
  match n with
  | .obj _ es => (es.map Prod.fst).Nodup && (es.map Prod.snd).Nodup
  | _ => true

/-- Every id occurring in the map (keys, stored ids, references) is below
`bound`: the freshness invariant of the id counter. -/
def idsBelowB (m : NodeMap) (bound : Nat) : Bool :=
  m.all (fun kv => kv.1 < bound && kv.2.nid < bound && (refsOf kv.2).all (fun r => r < bound))

/-- Key uniqueness across the whole document. -/
def docInvB (d : DocumentState) : Bool := d.nodes.all (fun kv => nodeOkB kv.2)

/-- The state-level invariant for add/rename sequences. -/
def stInvB (s : EditorState) : Bool :=
  match s.doc with
  | none => true
  | some d => docInvB d && idsBelowB d.nodes s.nextId

/-- One add-node or rename-key command. -/
inductive KOp where
  | add (parentId : Nat) (parentType : ParentKind) (key : Option String) (newType : NodeType)
  | ren (parentId childId : Nat) (newKey : String)

/-- Apply one add/rename command. -/
def applyKOp (s : EditorState) : KOp → EditorState
  | .add p pt k t => addNodeToDocument s p pt k t
  | .ren p c nk => renameKey s p c nk

/-- Apply a sequence of add/rename commands. -/
def applyKOps (ops : List KOp) (s : EditorState) : EditorState :=
  ops.foldl applyKOp s

/-- Case-insensitive substring containment, as the search claim words it. -/
def ciContains (q s : String) : Bool := subL (toLowerS q).data (toLowerS s).data

/-- Modelled from the spec claim for the search engine: a depth-first
traversal from the root respecting object entry order then array order; an
object entry whose key contains the query case-insensitively contributes
the child id before the child's own matches; a scalar whose stringified
value contains the query contributes its id. -/
def findVisitSpec (fuel : Nat) (m : NodeMap) (q : String) (nodeId : Nat) : List Nat :=
  match fuel with
  | 0 => []
  | fuel + 1 =>
    match lookupN m nodeId with
    | none => []
    | some (.obj _ entries) =>
      entries.foldl
        (fun acc e =>
          acc ++ ((if ciContains q e.1 then [e.2] else []) ++ findVisitSpec fuel m q e.2))
        []
    | some (.arr _ items) =>
      items.foldl (fun acc i => acc ++ findVisitSpec fuel m q i) []
    | some node =>
      if ciContains q (scalarString node) then [node.nid] else []

/-- The spec-side search result over a document. -/
def findSearchMatchesSpec (doc : DocumentState) (query : String) (rootId : Nat) : List Nat :=
  findVisitSpec (doc.nodes.length + 1) doc.nodes query rootId

/-- The root the sort operation starts from, per scope. -/
def rootOfScope (s : EditorState) (d : DocumentState) : SortScope → Option Nat
  | .all => some d.rootId
  | .selected => s.selectedId

/-- `m'` refines `m` by at most sorting some objects' entry lists: every
binding is either unchanged or an object with its entries stably sorted. -/
def SApprox (m m' : NodeMap) : Prop :=
  ∀ k, lookupN m' k = lookupN m k ∨
    ∃ i es, lookupN m k = some (.obj i es) ∧ lookupN m' k = some (.obj i (sortEntries es))

/-- A small concrete document for concrete instantiations: a root object
with a single numeric entry `a: 1`. -/
def wDoc : DocumentState := ⟨0, [(0, .obj 0 [("a", 1)]), (1, .num 1 (.finite 1))]⟩

/-- A concrete editor state over `wDoc` for concrete instantiations. -/
def wState : EditorState :=
  { rawText := "x", lastValidText := "x", doc := some wDoc, parseError := none
    expanded := [0], selectedId := some 0, searchQuery := "", searchMatches := []
    activeMatch := -1, searchFilterOnly := false, outputMode := .pretty, indent := 2
    undoStack := [], redoStack := [], autoParse := false, autoSaveEnabled := true
    notice := none, preSearchExpanded := none, anchorPath := [0], nextId := 2 }

/-- A parse boundary that always fails, reporting position 1. -/
def wParseErr : ParseFn := fun _ => .err "Unexpected token" (some 1)

/-- A parse boundary that always succeeds with `null`. -/
def wParseOk : ParseFn := fun _ => .ok .null

/-- Spec scenario 5, edit 1: set the numeric leaf to 2. -/
def scn1 : EditorState := editorReducer wParseErr wState (.editPrim 1 (.num (.finite 2)) none)

/-- Spec scenario 5, edit 2: set the numeric leaf to 3. -/
def scn2 : EditorState := editorReducer wParseErr scn1 (.editPrim 1 (.num (.finite 3)) none)

/-- Spec scenario 5, edit 3: set the numeric leaf to 4. -/
def scn3 : EditorState := editorReducer wParseErr scn2 (.editPrim 1 (.num (.finite 4)) none)

/-- Spec scenario 5: after the three edits, undo twice then redo once. -/
def scnFinal : EditorState :=
  editorReducer wParseErr (editorReducer wParseErr (editorReducer wParseErr scn3 .undo) .undo) .redo

/-- A document whose only node cites itself as its own array item: a node
map violating the acyclicity invariant. -/
def cycDoc : DocumentState := ⟨0, [(0, .arr 0 [0])]⟩

/-! ### Basic lemmas about the record operations -/

theorem lookup_insertN (m : NodeMap) (k : Nat) (v : JsonNode) (k' : Nat) :
    lookupN (insertN m k v) k' = if k = k' then some v else lookupN m k' := by
  induction m with
  | nil =>
    simp [insertN, lookupN]
  | cons kv t ih =>
    rcases kv with ⟨a, b⟩
    simp only [insertN]
    by_cases h1 : a = k
    · subst h1
      simp only [if_pos rfl, lookupN]
      by_cases h2 : a = k' <;> simp [h2]
    · simp only [if_neg h1, lookupN]
      by_cases h2 : a = k'
      · subst h2
        have h3 : ¬ a = k := h1
        simp only [if_pos rfl]
        have h4 : ¬ k = a := fun h => h3 h.symm
        simp [h4]
      · simp [h2, ih]

theorem lookup_eraseN (m : NodeMap) (k k' : Nat) :
    lookupN (eraseN m k) k' = if k' = k then none else lookupN m k' := by
  induction m with
  | nil => simp [eraseN, lookupN]
  | cons kv t ih =>
    rcases kv with ⟨a, b⟩
    by_cases h1 : a = k <;> by_cases h2 : k' = k
    · subst h1; subst h2
      simp [eraseN, lookupN, ih]
    · subst h1
      have h3 : ¬ a = k' := fun h => h2 h.symm
      simp [eraseN, lookupN, ih, h2, h3]
    · subst h2
      have h3 : ¬ a = k' := h1
      simp [eraseN, lookupN, ih, h1, h3]
    · by_cases h3 : a = k'
      · subst h3
        simp [eraseN, lookupN, ih, h1, h2]
      · simp [eraseN, lookupN, ih, h1, h2, h3]

theorem mem_insertN {m : NodeMap} {k : Nat} {v : JsonNode} {kv : Nat × JsonNode}
    (h : kv ∈ insertN m k v) : kv = (k, v) ∨ kv ∈ m := by
  induction m with
  | nil => simpa [insertN] using h
  | cons hd t ih =>
    rcases hd with ⟨a, b⟩
    by_cases h1 : a = k
    · subst h1
      simp only [insertN, if_pos rfl] at h
      rcases List.mem_cons.mp h with h' | h'
      · exact Or.inl h'
      · exact Or.inr (List.mem_cons_of_mem _ h')
    · simp only [insertN, if_neg h1] at h
      rcases List.mem_cons.mp h with h' | h'
      · exact Or.inr (by simp [h'])
      · rcases ih h' with h'' | h''
        · exact Or.inl h''
        · exact Or.inr (List.mem_cons_of_mem _ h'')

theorem lookupN_mem {m : NodeMap} {k : Nat} {v : JsonNode} (h : lookupN m k = some v) :
    (k, v) ∈ m := by
  induction m with
  | nil => simp [lookupN] at h
  | cons hd t ih =>
    rcases hd with ⟨a, b⟩
    simp only [lookupN] at h
    split at h
    · next heq =>
        subst heq
        cases h
        exact List.mem_cons_self _ _
    · next hne =>
        exact List.mem_cons_of_mem _ (ih h)

theorem lookupN_mem_keys {m : NodeMap} {k : Nat} {v : JsonNode}
    (h : lookupN m k = some v) : k ∈ keysN m := by
  have := lookupN_mem h
  exact List.mem_map.mpr ⟨(k, v), this, rfl⟩

theorem length_insertN_of_mem {m : NodeMap} {k : Nat} (v : JsonNode)
    (h : k ∈ keysN m) : (insertN m k v).length = m.length := by
  induction m with
  | nil => simp [keysN] at h
  | cons hd t ih =>
    rcases hd with ⟨a, b⟩
    simp only [insertN]
    by_cases h1 : a = k
    · simp [h1]
    · simp only [if_neg h1, List.length_cons]
      have h' : k ∈ keysN t := by
        simp only [keysN, List.map_cons, List.mem_cons] at h
        rcases h with h'' | h''
        · exact absurd h''.symm h1
        · simpa [keysN] using h''
      exact congrArg Nat.succ (ih h')

theorem length_insertN_of_not_mem {m : NodeMap} {k : Nat} (v : JsonNode)
    (h : k ∉ keysN m) : (insertN m k v).length = m.length + 1 := by
  induction m with
  | nil => rfl
  | cons hd t ih =>
    rcases hd with ⟨a, b⟩
    simp only [insertN]
    by_cases h1 : a = k
    · exact absurd (by simp [keysN, h1]) h
    · simp only [if_neg h1, List.length_cons]
      have h' : k ∉ keysN t := fun hmem => h (by simp [keysN] at hmem ⊢; exact Or.inr hmem)
      rw [ih h']

theorem keysN_insertN {m : NodeMap} {k : Nat} {v : JsonNode} {k' : Nat}
    (h : k' ∈ keysN (insertN m k v)) : k' ∈ keysN m ∨ k' = k := by
  obtain ⟨kv, hkv, hfst⟩ := List.mem_map.mp h
  rcases mem_insertN hkv with h' | h'
  · right
    rw [← hfst, h']
  · exact Or.inl (List.mem_map.mpr ⟨kv, h', hfst⟩)

/-- Distinct elements included in a list bound its length. -/
theorem nodup_subset_length {l1 l2 : List Nat} (h : l1.Nodup) (hs : l1 ⊆ l2) :
    l1.length ≤ l2.length := by
  classical
  calc l1.length = l1.toFinset.card := (List.toFinset_card_of_nodup h).symm
    _ ≤ l2.toFinset.card := Finset.card_le_card (fun x hx =>
        List.mem_toFinset.mpr (hs (List.mem_toFinset.mp hx)))
    _ ≤ l2.length := l2.toFinset_card_le

/-- Fold two pointwise-related lists with pointwise-agreeing step functions. -/
theorem foldl_rel {α β γ : Type} {R : α → β → Prop} (f : γ → α → γ) (g : γ → β → γ)
    (hfg : ∀ c a b, R a b → f c a = g c b) :
    ∀ {l₁ : List α} {l₂ : List β}, List.Forall₂ R l₁ l₂ → ∀ c, l₁.foldl f c = l₂.foldl g c := by
  intro l₁ l₂ h
  induction h with
  | nil => intro c; rfl
  | cons hab _ ih =>
    intro c
    simp only [List.foldl_cons]
    rw [hfg c _ _ hab]
    exact ih _

/-- Transport a pointwise relation along a permutation of its left side. -/
theorem forall2_of_perm {α β : Type} {R : α → β → Prop} :
    ∀ {l₁ l₂ : List α}, l₁.Perm l₂ → ∀ {ts : List β}, List.Forall₂ R l₁ ts →
      ∃ ts', ts.Perm ts' ∧ List.Forall₂ R l₂ ts' := by
  intro l₁ l₂ hp
  induction hp with
  | nil =>
    intro ts h
    cases h
    exact ⟨[], List.Perm.refl _, List.Forall₂.nil⟩
  | cons x _ ih =>
    intro ts h
    cases h with
    | cons hab htail =>
      obtain ⟨ts', hperm, hfa⟩ := ih htail
      exact ⟨_ :: ts', List.Perm.cons _ hperm, List.Forall₂.cons hab hfa⟩
  | swap x y t =>
    intro ts h
    cases h with
    | cons hy h2 =>
      cases h2 with
      | cons hx htail =>
        exact ⟨_ :: _ :: _, List.Perm.swap _ _ _, List.Forall₂.cons hx (List.Forall₂.cons hy htail)⟩
  | trans _ _ ih1 ih2 =>
    intro ts h
    obtain ⟨ts', hp1, hf1⟩ := ih1 h
    obtain ⟨ts'', hp2, hf2⟩ := ih2 hf1
    exact ⟨ts'', hp1.trans hp2, hf2⟩

/-! ### Projection lemmas: which state fields the search/finalize pipeline
can and cannot touch -/

theorem applySearch_proj (s : EditorState) (dO : Option DocumentState) (aO : Option (List Nat)) :
    (applySearch s dO aO).doc = s.doc ∧
    (applySearch s dO aO).rawText = s.rawText ∧
    (applySearch s dO aO).lastValidText = s.lastValidText ∧
    (applySearch s dO aO).undoStack = s.undoStack ∧
    (applySearch s dO aO).redoStack = s.redoStack ∧
    (applySearch s dO aO).notice = s.notice ∧
    (applySearch s dO aO).selectedId = s.selectedId ∧
    (applySearch s dO aO).nextId = s.nextId ∧
    (applySearch s dO aO).parseError = s.parseError := by
  simp only [applySearch]
  split
  · simp
  · split
    · simp
    · simp

theorem take50_cons (a : HistoryEntry) (l : List HistoryEntry) :
    (a :: l).take 50 = a :: l.take 49 := rfl

theorem withHistory_true_proj (s next : EditorState) :
    (withHistory s next true).doc = next.doc ∧
    (withHistory s next true).rawText = next.rawText ∧
    (withHistory s next true).lastValidText = next.lastValidText ∧
    (withHistory s next true).nextId = next.nextId ∧
    (withHistory s next true).selectedId = next.selectedId ∧
    (withHistory s next true).notice = next.notice ∧
    (withHistory s next true).undoStack = snapshotState s :: s.undoStack.take 49 ∧
    (withHistory s next true).redoStack = [] := by
  simp [withHistory, take50_cons]

theorem finalize_proj (s : EditorState) (d : DocumentState) (f : Option Nat) :
    (finalizeDocumentChange s d f).doc = some d ∧
    (finalizeDocumentChange s d f).undoStack = snapshotState s :: s.undoStack.take 49 ∧
    (finalizeDocumentChange s d f).redoStack = [] ∧
    (finalizeDocumentChange s d f).nextId = s.nextId ∧
    (finalizeDocumentChange s d f).selectedId = f.orElse (fun _ => s.selectedId) ∧
    (finalizeDocumentChange s d f).rawText = formatJson (documentToJson d) s.indent ∧
    (finalizeDocumentChange s d f).lastValidText = formatJson (documentToJson d) s.indent ∧
    (finalizeDocumentChange s d f).notice = s.notice := by
  have h2 := applySearch_proj
    { s with
      doc := some d
      rawText := formatJson (documentToJson d) s.indent
      lastValidText := formatJson (documentToJson d) s.indent
      parseError := none
      selectedId := f.orElse (fun _ => s.selectedId)
      preSearchExpanded := s.preSearchExpanded
      anchorPath := resolveAnchorPath d s.anchorPath }
    (some d) (some (resolveAnchorPath d s.anchorPath))
  have h1 := withHistory_true_proj s
    (applySearch
      { s with
        doc := some d
        rawText := formatJson (documentToJson d) s.indent
        lastValidText := formatJson (documentToJson d) s.indent
        parseError := none
        selectedId := f.orElse (fun _ => s.selectedId)
        preSearchExpanded := s.preSearchExpanded
        anchorPath := resolveAnchorPath d s.anchorPath }
      (some d) (some (resolveAnchorPath d s.anchorPath)))
  have key : finalizeDocumentChange s d f = withHistory s
      (applySearch
        { s with
          doc := some d
          rawText := formatJson (documentToJson d) s.indent
          lastValidText := formatJson (documentToJson d) s.indent
          parseError := none
          selectedId := f.orElse (fun _ => s.selectedId)
          preSearchExpanded := s.preSearchExpanded
          anchorPath := resolveAnchorPath d s.anchorPath }
        (some d) (some (resolveAnchorPath d s.anchorPath))) true := rfl
  rw [key]
  refine ⟨?_, h1.2.2.2.2.2.2.1, h1.2.2.2.2.2.2.2, ?_, ?_, ?_, ?_, ?_⟩
  · exact h1.1.trans h2.1
  · exact h1.2.2.2.1.trans h2.2.2.2.2.2.2.2.1
  · exact h1.2.2.2.2.1.trans h2.2.2.2.2.2.2.1
  · exact h1.2.1.trans h2.2.1
  · exact h1.2.2.1.trans h2.2.2.1
  · exact h1.2.2.2.2.2.1.trans h2.2.2.2.2.2.1

theorem undo_eq (po : ParseFn) (s : EditorState) (e : HistoryEntry) (rest : List HistoryEntry)
    (h : s.undoStack = e :: rest) :
    (editorReducer po s .undo).doc = e.doc ∧
    (editorReducer po s .undo).rawText = e.rawText ∧
    (editorReducer po s .undo).undoStack = rest ∧
    (editorReducer po s .undo).redoStack = snapshotState s :: s.redoStack.take 49 := by
  have hred : editorReducer po s .undo =
      (match s.undoStack with
       | [] => s
       | previous :: remaining =>
         let redoEntry := snapshotState s
         let restored := { s with
           doc := previous.doc
           rawText := previous.rawText
           expanded := mkSet previous.expanded
           selectedId := previous.selectedId
           anchorPath := previous.anchorPath
           undoStack := remaining
           redoStack := (redoEntry :: s.redoStack).take 50
           parseError := none
           preSearchExpanded := previous.preSearchExpanded.map mkSet }
         applySearch restored restored.doc (some restored.anchorPath)) := rfl
  rw [hred, h]
  simp only [take50_cons]
  have hp := applySearch_proj
    { s with
      doc := e.doc
      rawText := e.rawText
      expanded := mkSet e.expanded
      selectedId := e.selectedId
      anchorPath := e.anchorPath
      undoStack := rest
      redoStack := snapshotState s :: s.redoStack.take 49
      parseError := none
      preSearchExpanded := e.preSearchExpanded.map mkSet }
  exact ⟨(hp _ _).1, (hp _ _).2.1, (hp _ _).2.2.2.1, (hp _ _).2.2.2.2.1⟩

theorem redo_eq (po : ParseFn) (s : EditorState) (e : HistoryEntry) (rest : List HistoryEntry)
    (h : s.redoStack = e :: rest) :
    (editorReducer po s .redo).doc = e.doc ∧
    (editorReducer po s .redo).rawText = e.rawText ∧
    (editorReducer po s .redo).redoStack = rest ∧
    (editorReducer po s .redo).undoStack = snapshotState s :: s.undoStack.take 49 := by
  have hred : editorReducer po s .redo =
      (match s.redoStack with
       | [] => s
       | nextEntry :: remaining =>
         let undoEntry := snapshotState s
         let restored := { s with
           doc := nextEntry.doc
           rawText := nextEntry.rawText
           expanded := mkSet nextEntry.expanded
           selectedId := nextEntry.selectedId
           anchorPath := nextEntry.anchorPath
           redoStack := remaining
           undoStack := (undoEntry :: s.undoStack).take 50
           parseError := none
           preSearchExpanded := nextEntry.preSearchExpanded.map mkSet }
         applySearch restored restored.doc (some restored.anchorPath)) := rfl
  rw [hred, h]
  simp only [take50_cons]
  have hp := applySearch_proj
    { s with
      doc := e.doc
      rawText := e.rawText
      expanded := mkSet e.expanded
      selectedId := e.selectedId
      anchorPath := e.anchorPath
      redoStack := rest
      undoStack := snapshotState s :: s.undoStack.take 49
      parseError := none
      preSearchExpanded := e.preSearchExpanded.map mkSet }
  exact ⟨(hp _ _).1, (hp _ _).2.1, (hp _ _).2.2.2.2.1, (hp _ _).2.2.2.1⟩

/-- `splitNl` never returns the empty list. -/
theorem splitNl_ne_nil (l : List Char) : splitNl l ≠ [] := by
  cases l with
  | nil => simp [splitNl]
  | cons c t =>
    simp only [splitNl]
    match h : splitNl t with
    | [] => simp
    | lh :: ls =>
      by_cases hc : c = '\n' <;> simp [hc]

theorem applyParse_ok_stacks (po : ParseFn) (s : EditorState) (text : String) (v : JsonValue)
    (h : po text = .ok v) :
    (applyParse po s text).undoStack = snapshotState s :: s.undoStack.take 49 ∧
    (applyParse po s text).redoStack = [] := by
  unfold applyParse parseJson
  rw [h]
  exact ⟨(withHistory_true_proj _ _).2.2.2.2.2.2.1, (withHistory_true_proj _ _).2.2.2.2.2.2.2⟩

/-- Undo after a push restores the pushed snapshot's document and raw text,
and a redo right after restores the pre-undo state's document and raw
text. -/
theorem undo_redo_core (po : ParseFn) (s1 s : EditorState) (rest : List HistoryEntry)
    (h1 : s1.undoStack = snapshotState s :: rest) (h2 : s1.redoStack = []) :
    (editorReducer po s1 .undo).doc = s.doc ∧
    (editorReducer po s1 .undo).rawText = s.rawText ∧
    (editorReducer po (editorReducer po s1 .undo) .redo).doc = s1.doc ∧
    (editorReducer po (editorReducer po s1 .undo) .redo).rawText = s1.rawText := by
  have hu := undo_eq po s1 (snapshotState s) rest h1
  have hredoStack : (editorReducer po s1 .undo).redoStack = [snapshotState s1] := by
    rw [hu.2.2.2, h2]
    rfl
  have hr := redo_eq po (editorReducer po s1 .undo) (snapshotState s1) [] hredoStack
  exact ⟨hu.1, hu.2.1, hr.1, hr.2.1⟩

/-- C9: a parse or load-text command whose input fails to parse leaves the
document, the last-valid text, and the undo/redo stacks unchanged, and
surfaces only a parse error whose line/column, when derived from the
reported position, are 1-based. -/
theorem claim_C9_parse_failure_nondestructive (po : ParseFn) (s : EditorState)
    (text msg : String) (pos : Option Nat) (h : po text = .err msg pos) :
    (∃ pe : ParseError,
      editorReducer po s (.loadText text) = { s with parseError := some pe } ∧
      pe.message = msg ∧
      (∀ l, pe.line = some l → 1 ≤ l) ∧
      (∀ c, pe.column = some c → 1 ≤ c) ∧
      (pos.isSome → pe.line.isSome ∧ pe.column.isSome)) ∧
    (editorReducer po s (.loadText text)).doc = s.doc ∧
    (editorReducer po s (.loadText text)).lastValidText = s.lastValidText ∧
    (editorReducer po s (.loadText text)).undoStack = s.undoStack ∧
    (editorReducer po s (.loadText text)).redoStack = s.redoStack ∧
    editorReducer po s .parseText = editorReducer po s (.loadText s.rawText) := by
  have hmain : ∀ pe : ParseError, parseJson po text = .error pe →
      editorReducer po s (.loadText text) = { s with parseError := some pe } := by
    intro pe hpe
    show applyParse po s text = _
    unfold applyParse
    rw [hpe]
  cases pos with
  | none =>
    have hpe : parseJson po text = .error ⟨msg, none, none⟩ := by
      unfold parseJson
      rw [h]
    have he := hmain _ hpe
    refine ⟨⟨⟨msg, none, none⟩, he, rfl, ?_, ?_, ?_⟩, ?_, ?_, ?_, ?_, rfl⟩
    · intro l hl; cases hl
    · intro c hc; cases hc
    · intro hs; cases hs
    · rw [he]
    · rw [he]
    · rw [he]
    · rw [he]
  | some idx =>
    have hpe : parseJson po text =
        .error ⟨msg, some (getLineColumn text idx).1, some (getLineColumn text idx).2⟩ := by
      unfold parseJson
      rw [h]
    have he := hmain _ hpe
    refine ⟨⟨_, he, rfl, ?_, ?_, ?_⟩, ?_, ?_, ?_, ?_, rfl⟩
    · intro l hl
      cases hl
      have hne := splitNl_ne_nil (text.data.take idx)
      have := List.length_pos.mpr hne
      simpa [getLineColumn] using this
    · intro c hc
      cases hc
      simp [getLineColumn]
    · intro _; exact ⟨rfl, rfl⟩
    · rw [he]
    · rw [he]
    · rw [he]
    · rw [he]

/-- C9 witness: instantiate the parse-failure theorem on a concrete state
and a concrete failing parse boundary. -/
theorem claim_C9_witness :
    (editorReducer wParseErr wState (.loadText "oops")).doc = wState.doc ∧
    (editorReducer wParseErr wState (.loadText "oops")).undoStack = wState.undoStack :=
  ⟨(claim_C9_parse_failure_nondestructive wParseErr wState "oops" "Unexpected token"
      (some 1) rfl).2.1,
   (claim_C9_parse_failure_nondestructive wParseErr wState "oops" "Unexpected token"
      (some 1) rfl).2.2.2.1⟩

/-- C6: every successful structural mutation (all of edit, rename, add,
delete, move and sort funnel through `finalizeDocumentChange`, and a
successful parse/load funnels through the same history push) leaves the
full pre-mutation snapshot as the newest undo entry and clears redo; the
undo stack stays within 50 entries, a push keeping the snapshot plus the 49
newest previous entries and evicting anything older. -/
theorem claim_C6_history_push (s : EditorState) (d : DocumentState) (f : Option Nat) :
    (finalizeDocumentChange s d f).undoStack = snapshotState s :: s.undoStack.take 49 ∧
    (finalizeDocumentChange s d f).redoStack = [] ∧
    (finalizeDocumentChange s d f).undoStack.length ≤ 50 ∧
    (snapshotState s).doc = s.doc ∧
    (snapshotState s).rawText = s.rawText ∧
    (snapshotState s).expanded = s.expanded ∧
    (snapshotState s).selectedId = s.selectedId ∧
    (snapshotState s).anchorPath = s.anchorPath ∧
    (∀ po text v, po text = .ok v →
      (editorReducer po s (.loadText text)).undoStack = snapshotState s :: s.undoStack.take 49 ∧
      (editorReducer po s (.loadText text)).redoStack = []) := by
  have hf := finalize_proj s d f
  refine ⟨hf.2.1, hf.2.2.1, ?_, rfl, rfl, rfl, rfl, rfl, ?_⟩
  · rw [hf.2.1]
    have : (s.undoStack.take 49).length ≤ 49 := List.length_take_le 49 s.undoStack
    simp only [List.length_cons]
    omega
  · intro po text v hok
    exact applyParse_ok_stacks po s text v hok

/-- C4: undo after any successful mutation (via `finalizeDocumentChange` or
a successful parse/load) restores the document and the raw-text mirror to
their pre-mutation values, and an immediate redo restores the post-mutation
document and text; in particular, 3 edits, undo twice, redo once lands on
the state after the first 2 edits. -/
theorem claim_C4_undo_redo_inverse (po : ParseFn) (s : EditorState) (d : DocumentState)
    (f : Option Nat) :
    ((editorReducer po (finalizeDocumentChange s d f) .undo).doc = s.doc ∧
     (editorReducer po (finalizeDocumentChange s d f) .undo).rawText = s.rawText ∧
     (editorReducer po (editorReducer po (finalizeDocumentChange s d f) .undo) .redo).doc =
       (finalizeDocumentChange s d f).doc ∧
     (editorReducer po (editorReducer po (finalizeDocumentChange s d f) .undo) .redo).rawText =
       (finalizeDocumentChange s d f).rawText) ∧
    (∀ text v, po text = .ok v →
      (editorReducer po (editorReducer po s (.loadText text)) .undo).doc = s.doc ∧
      (editorReducer po (editorReducer po s (.loadText text)) .undo).rawText = s.rawText ∧
      (editorReducer po (editorReducer po (editorReducer po s (.loadText text)) .undo)
          .redo).doc = (editorReducer po s (.loadText text)).doc ∧
      (editorReducer po (editorReducer po (editorReducer po s (.loadText text)) .undo)
          .redo).rawText = (editorReducer po s (.loadText text)).rawText) ∧
    (scnFinal.doc = scn2.doc ∧ scnFinal.rawText = scn2.rawText) := by
  refine ⟨?_, ?_, ?_, ?_⟩
  · exact undo_redo_core po (finalizeDocumentChange s d f) s (s.undoStack.take 49)
      (finalize_proj s d f).2.1 (finalize_proj s d f).2.2.1
  · intro text v hok
    exact undo_redo_core po (editorReducer po s (.loadText text)) s (s.undoStack.take 49)
      (applyParse_ok_stacks po s text v hok).1 (applyParse_ok_stacks po s text v hok).2
  · decide
  · decide

/-- C4 witness: the successful-parse conjunct instantiated at a concrete
state and parse boundary. -/
theorem claim_C4_witness :
    (editorReducer wParseOk (editorReducer wParseOk wState (.loadText "null")) .undo).doc =
      wState.doc :=
  ((claim_C4_undo_redo_inverse wParseOk wState wDoc none).2.1 "null" .null rfl).1

/-- C5: the numeric edit guard (`typeof value !== 'number' ||
Number.isNaN(value)`) rejects NaN and non-numbers atomically with an error
notice, but it accepts Infinity — contradicting the repository's own
validation rules ("Numbers must parse to valid JSON numbers") and its own
error message: the edit below succeeds, stores `Infinity` in a `number`
node, surfaces no error, and pushes a history entry. -/
theorem claim_C5_number_guard_accepts_infinity :
    docLookup (editPrimitive wState 1 (.num .inf) none) 1 = some (.num 1 .inf) ∧
    (editPrimitive wState 1 (.num .inf) none).notice = none ∧
    (editPrimitive wState 1 (.num .inf) none).undoStack.length = 1 ∧
    editPrimitive wState 1 (.num .nan) none =
      { wState with notice := some ⟨.error, "Numbers must be valid JSON numbers."⟩ } ∧
    editPrimitive wState 1 (.str "5") none =
      { wState with notice := some ⟨.error, "Numbers must be valid JSON numbers."⟩ } := by
  refine ⟨by decide, by decide, by decide, by decide, by decide⟩

/-- C10 counterexample: on a document whose id references are cyclic the
conversion's value depends on the recursion depth bound — the modelled
image of the source recursion failing to terminate (`buildValue` overflows
the stack there), so "total for any document, including ones violating the
tree invariants" fails. -/
theorem claim_C10_counterexample :
    buildValueM 1 cycDoc.nodes cycDoc.rootId ≠ buildValueM 2 cycDoc.nodes cycDoc.rootId := by
  intro h
  simp [buildValueM, cycDoc, lookupN] at h

/-- C10 (amended): conversion never fails on dangling references — a
referenced id absent from the node map serializes as `null`, at every
recursion depth, and a document whose root id dangles converts to `null`. -/
theorem claim_C10_missing_id_yields_null :
    (∀ (m : NodeMap) (fuel k : Nat), lookupN m k = none → buildValueM fuel m k = .null) ∧
    (∀ d : DocumentState, lookupN d.nodes d.rootId = none → documentToJson d = .null) := by
  have h1 : ∀ (m : NodeMap) (fuel k : Nat), lookupN m k = none → buildValueM fuel m k = .null := by
    intro m fuel k h
    cases fuel with
    | zero => rfl
    | succ n => simp [buildValueM, h]
  exact ⟨h1, fun d h => h1 _ _ _ h⟩

/-- C10 witness: the dangling-reference law applied to a concrete lookup
miss. -/
theorem claim_C10_witness :
    lookupN ([] : NodeMap) 5 = none ∧ buildValueM 3 ([] : NodeMap) 5 = .null :=
  ⟨rfl, claim_C10_missing_id_yields_null.1 [] 3 5 rfl⟩

/-- Folding list-append steps starts from the empty accumulator. -/
theorem foldl_append_init {α β : Type} (f : α → List β) :
    ∀ (l : List α) (a : List β),
      l.foldl (fun acc x => acc ++ f x) a = a ++ l.foldl (fun acc x => acc ++ f x) [] := by
  intro l
  induction l with
  | nil => simp
  | cons x xs ih =>
    intro a
    simp only [List.foldl_cons]
    rw [ih (a ++ f x), ih ([] ++ f x)]
    simp [List.append_assoc]

/-- The search traversal of the source equals the claim's specification of
it, relative to any accumulator. -/
theorem findVisit_eq_spec (q : String) (m : NodeMap) :
    ∀ (fuel root : Nat) (acc : List Nat),
      findVisit fuel m (toLowerS q).data root acc = acc ++ findVisitSpec fuel m q root := by
  intro fuel
  induction fuel with
  | zero =>
    intro root acc
    simp [findVisit, findVisitSpec]
  | succ n ih =>
    intro root acc
    simp only [findVisit, findVisitSpec]
    cases hn : lookupN m root with
    | none => simp
    | some node =>
      cases node with
      | obj i entries =>
        clear hn
        dsimp only
        induction entries generalizing acc with
        | nil => simp
        | cons e es ihe =>
          simp only [List.foldl_cons]
          rw [ih e.2, ihe]
          conv_rhs => rw [foldl_append_init
            (fun e => (if ciContains q e.1 then [e.2] else []) ++ findVisitSpec n m q e.2) es]
          by_cases hc : subL (toLowerS q).data (toLowerS e.1).data = true
          · simp [hc, ciContains, List.append_assoc]
          · simp [hc, ciContains, List.append_assoc]
      | arr i items =>
        clear hn
        dsimp only
        induction items generalizing acc with
        | nil => simp
        | cons c cs ihc =>
          simp only [List.foldl_cons]
          rw [ih c, ihc]
          conv_rhs => rw [foldl_append_init (fun c => findVisitSpec n m q c) cs]
          simp [List.append_assoc]
      | str i sv =>
        by_cases hc : subL (toLowerS q).data (toLowerS (scalarString (.str i sv))).data = true
        · simp [hc, ciContains]
        · simp [hc, ciContains]
      | num i nv =>
        by_cases hc : subL (toLowerS q).data (toLowerS (scalarString (.num i nv))).data = true
        · simp [hc, ciContains]
        · simp [hc, ciContains]
      | bool i bv =>
        by_cases hc : subL (toLowerS q).data (toLowerS (scalarString (.bool i bv))).data = true
        · simp [hc, ciContains]
        · simp [hc, ciContains]
      | null i =>
        by_cases hc : subL (toLowerS q).data (toLowerS (scalarString (.null i))).data = true
        · simp [hc, ciContains]
        · simp [hc, ciContains]

/-- C8: the search engine performs exactly the claimed traversal — a
depth-first walk in object-entry then array order, recording the child id
(not the parent) before descending on a case-insensitive key-substring
match, and matching scalars on their stringified value — and a blank
(empty or whitespace-only) query yields no matches and clears the active
match index. -/
theorem claim_C8_search_traversal (doc : DocumentState) (q : String) (rootId : Nat) :
    findSearchMatches doc q rootId = findSearchMatchesSpec doc q rootId ∧
    (∀ (s : EditorState) (dO : Option DocumentState) (aO : Option (List Nat)),
      trimS s.searchQuery = "" →
      (applySearch s dO aO).searchMatches = [] ∧ (applySearch s dO aO).activeMatch = -1) := by
  constructor
  · show findVisit _ _ _ _ [] = _
    simpa using findVisit_eq_spec q doc.nodes (doc.nodes.length + 1) rootId []
  · intro s dO aO hq
    simp only [applySearch]
    split
    · exact ⟨rfl, rfl⟩
    · rw [if_pos hq]
      exact ⟨rfl, rfl⟩

/-- C8 witness: blank-query behaviour applied at a concrete state. -/
theorem claim_C8_witness :
    trimS wState.searchQuery = "" ∧ (applySearch wState none none).searchMatches = [] :=
  ⟨by decide,
   ((claim_C8_search_traversal wDoc "" 0).2 wState none none (by decide)).1⟩

/-! ### Key uniqueness: invariant preservation by add/rename -/

theorem nodeOk_default (id : Nat) (nt : NodeType) : nodeOkB (defaultNode id nt) = true := by
  cases nt <;> simp [defaultNode, nodeOkB]

theorem refs_default (id : Nat) (nt : NodeType) : refsOf (defaultNode id nt) = [] := by
  cases nt <;> rfl

theorem nid_default (id : Nat) (nt : NodeType) : (defaultNode id nt).nid = id := by
  cases nt <;> rfl

theorem docInv_mem {d : DocumentState} {kv : Nat × JsonNode} (h : docInvB d = true)
    (hm : kv ∈ d.nodes) : nodeOkB kv.2 = true :=
  List.all_eq_true.mp h kv hm

theorem idsBelow_mem {m : NodeMap} {bound : Nat} {kv : Nat × JsonNode}
    (h : idsBelowB m bound = true) (hm : kv ∈ m) :
    kv.1 < bound ∧ kv.2.nid < bound ∧ ∀ r ∈ refsOf kv.2, r < bound := by
  have h' := List.all_eq_true.mp h kv hm
  simp only [Bool.and_eq_true, decide_eq_true_eq, List.all_eq_true] at h'
  exact ⟨h'.1.1, h'.1.2, fun r hr => by simpa using h'.2 r hr⟩

theorem stInvB_of (x : EditorState) (d : DocumentState) (hd : x.doc = some d)
    (h1 : docInvB d = true) (h2 : idsBelowB d.nodes x.nextId = true) : stInvB x = true := by
  simp [stInvB, hd, h1, h2]

theorem stInv_parts {s : EditorState} {d : DocumentState} (h : stInvB s = true)
    (hd : s.doc = some d) : docInvB d = true ∧ idsBelowB d.nodes s.nextId = true := by
  simpa [stInvB, hd, Bool.and_eq_true] using h

theorem renameEntry_snd (es : List (String × Nat)) (c : Nat) (k : String) :
    (renameEntry es c k).map Prod.snd = es.map Prod.snd := by
  induction es with
  | nil => rfl
  | cons e t ih =>
    simp only [renameEntry]
    by_cases hc : e.2 = c
    · simp [hc]
    · simp [hc, ih]

theorem renameEntry_cons_pos {e : String × Nat} {t : List (String × Nat)} {c : Nat}
    {k : String} (hc : e.2 = c) : renameEntry (e :: t) c k = (k, e.2) :: t := by
  simp only [renameEntry]
  rw [if_pos hc]

theorem renameEntry_cons_neg {e : String × Nat} {t : List (String × Nat)} {c : Nat}
    {k : String} (hc : ¬ e.2 = c) : renameEntry (e :: t) c k = e :: renameEntry t c k := by
  simp only [renameEntry]
  rw [if_neg hc]

theorem renameEntry_keys_sub {es : List (String × Nat)} {c : Nat} {k : String} :
    ∀ x ∈ (renameEntry es c k).map Prod.fst, x ∈ es.map Prod.fst ∨ x = k := by
  induction es with
  | nil => intro x hx; exact absurd hx (by simp [renameEntry])
  | cons e t ih =>
    intro x hx
    by_cases hc : e.2 = c
    · rw [renameEntry_cons_pos hc, List.map_cons] at hx
      rcases List.mem_cons.mp hx with h' | h'
      · exact Or.inr h'
      · exact Or.inl (by rw [List.map_cons]; exact List.mem_cons_of_mem _ h')
    · rw [renameEntry_cons_neg hc, List.map_cons] at hx
      rcases List.mem_cons.mp hx with h' | h'
      · exact Or.inl (by rw [List.map_cons, h']; exact List.mem_cons_self _ _)
      · rcases ih x h' with h'' | h''
        · exact Or.inl (by rw [List.map_cons]; exact List.mem_cons_of_mem _ h'')
        · exact Or.inr h''

theorem renameEntry_keys_nodup {es : List (String × Nat)} {c : Nat} {k : String}
    (hk : (es.map Prod.fst).Nodup) (hs : (es.map Prod.snd).Nodup)
    (hno : ∀ e ∈ es, e.1 = k → e.2 = c) :
    ((renameEntry es c k).map Prod.fst).Nodup := by
  induction es with
  | nil => simp [renameEntry]
  | cons e t ih =>
    simp only [List.map_cons, List.nodup_cons] at hk hs
    by_cases hc : e.2 = c
    · rw [renameEntry_cons_pos hc, List.map_cons]
      rw [List.nodup_cons]
      refine ⟨?_, hk.2⟩
      intro hmem
      obtain ⟨e', he', hke'⟩ := List.mem_map.mp hmem
      have he2 : e'.2 = c := hno e' (List.mem_cons_of_mem _ he') hke'
      exact hs.1 (List.mem_map.mpr ⟨e', he', by rw [he2, ← hc]⟩)
    · rw [renameEntry_cons_neg hc, List.map_cons, List.nodup_cons]
      refine ⟨?_, ih hk.2 hs.2 (fun e' he' hke' => hno e' (List.mem_cons_of_mem _ he') hke')⟩
      intro hmem
      rcases renameEntry_keys_sub _ hmem with h' | h'
      · exact hk.1 h'
      · exact hc (hno e (List.mem_cons_self _ _) h')

theorem stInv_addNode (s : EditorState) (p : Nat) (pt : ParentKind) (key : Option String)
    (nt : NodeType) (h : stInvB s = true) :
    stInvB (addNodeToDocument s p pt key nt) = true := by
  unfold addNodeToDocument
  cases hdoc : s.doc with
  | none => exact h
  | some d =>
    dsimp only
    cases hp : lookupN d.nodes p with
    | none => exact h
    | some parent =>
      dsimp only
      obtain ⟨hInvD, hInvB⟩ := stInv_parts h hdoc
      cases pt with
      | obj =>
        cases parent with
        | obj pid entries =>
          dsimp only
          cases key with
          | none =>
            simp only [stInvB, hdoc] at h ⊢
            exact h
          | some k =>
            dsimp only
            by_cases hk : trimS k = ""
            · rw [if_pos hk]
              simp only [stInvB, hdoc] at h ⊢
              exact h
            · rw [if_neg hk]
              by_cases hdup : (entries.any fun e => decide (e.1 = trimS k)) = true
              · rw [if_pos hdup]
                simp only [stInvB, hdoc] at h ⊢
                exact h
              · rw [if_neg hdup]
                have hpm := lookupN_mem hp
                have hokp : nodeOkB (.obj pid entries) = true := docInv_mem hInvD hpm
                have hbp := idsBelow_mem hInvB hpm
                simp only [JsonNode.nid, refsOf] at hbp
                simp only [nodeOkB, Bool.and_eq_true, decide_eq_true_eq] at hokp
                simp only [List.any_eq_true, decide_eq_true_eq, not_exists, not_and] at hdup
                refine stInvB_of _ _ (finalize_proj _ _ _).1 ?_ ?_
                · simp only [docInvB, List.all_eq_true]
                  intro kv hkv
                  rcases mem_insertN hkv with hkv | hkv
                  · subst hkv
                    simp only [nodeOkB, List.map_append, Bool.and_eq_true, decide_eq_true_eq]
                    constructor
                    · simp only [List.nodup_append, List.nodup_cons, List.nodup_nil]
                      refine ⟨hokp.1, by simp, ?_⟩
                      intro x hx hxk
                      obtain ⟨e', he', hke'⟩ := List.mem_map.mp hx
                      have hxk2 : x = trimS k := by simpa using hxk
                      exact hdup e' he' (by rw [hke']; exact hxk2)
                    · simp only [List.nodup_append, List.nodup_cons, List.nodup_nil]
                      refine ⟨hokp.2, by simp, ?_⟩
                      intro x hx hxc
                      have hxc2 : x = s.nextId := by simpa using hxc
                      have hlt : x < s.nextId := hbp.2.2 x hx
                      omega
                  · rcases mem_insertN hkv with hkv | hkv
                    · subst hkv
                      exact nodeOk_default _ _
                    · exact docInv_mem hInvD hkv
                · rw [(finalize_proj _ _ _).2.2.2.1]
                  dsimp only
                  simp only [idsBelowB, List.all_eq_true]
                  intro kv hkv
                  rcases mem_insertN hkv with hkv | hkv
                  · subst hkv
                    simp only [Bool.and_eq_true, decide_eq_true_eq, List.all_eq_true,
                      JsonNode.nid, refsOf, List.map_append]
                    refine ⟨⟨by omega, by omega⟩, ?_⟩
                    intro r hr
                    rcases List.mem_append.mp hr with hr | hr
                    · have hlt := hbp.2.2 r hr
                      try simp only [decide_eq_true_eq]
                      omega
                    · have hr2 : r = s.nextId := by simpa using hr
                      subst hr2
                      try simp only [decide_eq_true_eq]
                      omega
                  · rcases mem_insertN hkv with hkv | hkv
                    · subst hkv
                      simp only [Bool.and_eq_true, decide_eq_true_eq, List.all_eq_true,
                        nid_default, refs_default]
                      refine ⟨⟨by omega, by omega⟩, ?_⟩
                      intro r hr
                      exact absurd hr (List.not_mem_nil r)
                    · have hb := idsBelow_mem hInvB hkv
                      simp only [Bool.and_eq_true, decide_eq_true_eq, List.all_eq_true]
                      refine ⟨⟨by omega, by omega⟩, ?_⟩
                      intro r hr
                      have hlt := hb.2.2 r hr
                      try simp only [decide_eq_true_eq]
                      omega
        | arr pid items => exact h
        | str pid v => exact h
        | num pid v => exact h
        | bool pid v => exact h
        | null pid => exact h
      | arr =>
        cases parent with
        | arr pid items =>
          dsimp only
          have hpm := lookupN_mem hp
          have hbp := idsBelow_mem hInvB hpm
          simp only [JsonNode.nid, refsOf] at hbp
          refine stInvB_of _ _ (finalize_proj _ _ _).1 ?_ ?_
          · simp only [docInvB, List.all_eq_true]
            intro kv hkv
            rcases mem_insertN hkv with hkv | hkv
            · subst hkv
              simp [nodeOkB]
            · rcases mem_insertN hkv with hkv | hkv
              · subst hkv
                exact nodeOk_default _ _
              · exact docInv_mem hInvD hkv
          · rw [(finalize_proj _ _ _).2.2.2.1]
            dsimp only
            simp only [idsBelowB, List.all_eq_true]
            intro kv hkv
            rcases mem_insertN hkv with hkv | hkv
            · subst hkv
              simp only [Bool.and_eq_true, decide_eq_true_eq, List.all_eq_true,
                JsonNode.nid, refsOf]
              refine ⟨⟨by omega, by omega⟩, ?_⟩
              intro r hr
              rcases List.mem_append.mp hr with hr | hr
              · have hlt := hbp.2.2 r hr
                try simp only [decide_eq_true_eq]
                omega
              · have hr2 : r = s.nextId := by simpa using hr
                subst hr2
                try simp only [decide_eq_true_eq]
                omega
            · rcases mem_insertN hkv with hkv | hkv
              · subst hkv
                simp only [Bool.and_eq_true, decide_eq_true_eq, List.all_eq_true,
                  nid_default, refs_default]
                refine ⟨⟨by omega, by omega⟩, ?_⟩
                intro r hr
                exact absurd hr (List.not_mem_nil r)
              · have hb := idsBelow_mem hInvB hkv
                simp only [Bool.and_eq_true, decide_eq_true_eq, List.all_eq_true]
                refine ⟨⟨by omega, by omega⟩, ?_⟩
                intro r hr
                have hlt := hb.2.2 r hr
                try simp only [decide_eq_true_eq]
                omega
        | obj pid entries => exact h
        | str pid v => exact h
        | num pid v => exact h
        | bool pid v => exact h
        | null pid => exact h

theorem stInv_renameKey (s : EditorState) (p c : Nat) (nk : String) (h : stInvB s = true) :
    stInvB (renameKey s p c nk) = true := by
  unfold renameKey
  cases hdoc : s.doc with
  | none => exact h
  | some d =>
    dsimp only
    by_cases ht : trimS nk = ""
    · rw [if_pos ht]
      simp only [stInvB, hdoc] at h ⊢
      exact h
    · rw [if_neg ht]
      cases hp : lookupN d.nodes p with
      | none => exact h
      | some parent =>
        cases parent with
        | obj pid entries =>
          dsimp only
          obtain ⟨hInvD, hInvB⟩ := stInv_parts h hdoc
          have hpm := lookupN_mem hp
          have hokp : nodeOkB (.obj pid entries) = true := docInv_mem hInvD hpm
          have hbp := idsBelow_mem hInvB hpm
          simp only [JsonNode.nid, refsOf] at hbp
          simp only [nodeOkB, Bool.and_eq_true, decide_eq_true_eq] at hokp
          split
          · simp only [stInvB, hdoc] at h ⊢
            exact h
          · next hdup =>
            split
            · exact h
            · refine stInvB_of _ _ (finalize_proj _ _ _).1 ?_ ?_
              · simp only [docInvB, List.all_eq_true]
                intro kv hkv
                rcases mem_insertN hkv with hkv | hkv
                · subst hkv
                  have hno : ∀ e ∈ entries, e.1 = trimS nk → e.2 = c := by
                    intro e he hek
                    by_contra hec
                    exact hdup (by
                      simp only [List.any_eq_true]
                      exact ⟨e, he, by simp [hek, hec]⟩)
                  simp only [nodeOkB, Bool.and_eq_true, decide_eq_true_eq]
                  exact ⟨renameEntry_keys_nodup hokp.1 hokp.2 hno,
                    by rw [renameEntry_snd]; exact hokp.2⟩
                · exact docInv_mem hInvD hkv
              · rw [(finalize_proj _ _ _).2.2.2.1]
                dsimp only
                simp only [idsBelowB, List.all_eq_true]
                intro kv hkv
                rcases mem_insertN hkv with hkv | hkv
                · subst hkv
                  simp only [Bool.and_eq_true, decide_eq_true_eq, List.all_eq_true,
                    JsonNode.nid, refsOf, renameEntry_snd]
                  refine ⟨⟨by omega, by omega⟩, ?_⟩
                  intro r hr
                  have hlt := hbp.2.2 r hr
                  try simp only [decide_eq_true_eq]
                  omega
                · exact List.all_eq_true.mp hInvB kv hkv
        | arr pid items => exact h
        | str pid v => exact h
        | num pid v => exact h
        | bool pid v => exact h
        | null pid => exact h

theorem stInv_applyKOps (ops : List KOp) (s : EditorState) (h : stInvB s = true) :
    stInvB (applyKOps ops s) = true := by
  induction ops generalizing s with
  | nil => exact h
  | cons op ops ih =>
    show stInvB (applyKOps ops (applyKOp s op)) = true
    refine ih _ ?_
    cases op with
    | add p pt k t => exact stInv_addNode s p pt k t h
    | ren p c nk => exact stInv_renameKey s p c nk h

theorem keys_nodup_of_stInv {s : EditorState} (h : stInvB s = true) {k i : Nat}
    {es : List (String × Nat)} (hl : docLookup s k = some (.obj i es)) :
    (es.map Prod.fst).Nodup := by
  unfold docLookup at hl
  cases hdoc : s.doc with
  | none => rw [hdoc] at hl; cases hl
  | some d =>
    rw [hdoc] at hl
    have hok : nodeOkB (JsonNode.obj i es) = true :=
      docInv_mem (stInv_parts h hdoc).1 (lookupN_mem hl)
    simp only [nodeOkB, Bool.and_eq_true, decide_eq_true_eq] at hok
    exact hok.1

/-- C3: under the document invariants, any sequence of add-node and
rename-key operations keeps every object's keys pairwise distinct (exact,
case-sensitive string comparison); an add whose (trimmed) key is already
present in the target object, and a rename whose new key is already used
by a different entry of the same object, are rejected with an error notice
and leave the state (document included) unchanged. -/
theorem claim_C3_key_uniqueness (s : EditorState) (h : stInvB s = true) :
    (∀ ops : List KOp, stInvB (applyKOps ops s) = true) ∧
    (∀ (ops : List KOp) (k i : Nat) (es : List (String × Nat)),
      docLookup (applyKOps ops s) k = some (.obj i es) → (es.map Prod.fst).Nodup) ∧
    (∀ (p i : Nat) (es : List (String × Nat)) (key : String) (nt : NodeType)
      (d : DocumentState),
      s.doc = some d → lookupN d.nodes p = some (.obj i es) → ¬ trimS key = "" →
      (es.any fun e => e.1 = trimS key) = true →
      applyKOp s (.add p .obj (some key) nt) =
        { s with notice := some ⟨.error, "Duplicate key inside this object."⟩ }) ∧
    (∀ (p c i : Nat) (es : List (String × Nat)) (nk : String) (d : DocumentState),
      s.doc = some d → lookupN d.nodes p = some (.obj i es) → ¬ trimS nk = "" →
      (es.any fun e => e.1 = trimS nk ∧ e.2 ≠ c) = true →
      applyKOp s (.ren p c nk) =
        { s with notice := some ⟨.error, "Keys must be unique within the object."⟩ }) := by
  refine ⟨fun ops => stInv_applyKOps ops s h,
    fun ops k i es hl => keys_nodup_of_stInv (stInv_applyKOps ops s h) hl, ?_, ?_⟩
  · intro p i es key nt d hdoc hp hne hdup
    show addNodeToDocument s p .obj (some key) nt = _
    unfold addNodeToDocument
    rw [hdoc]
    dsimp only
    rw [hp]
    dsimp only
    rw [if_neg hne, if_pos hdup]
  · intro p c i es nk d hdoc hp hne hdup
    show renameKey s p c nk = _
    unfold renameKey
    rw [hdoc]
    dsimp only
    rw [if_neg hne, hp]
    dsimp only
    rw [if_pos hdup]

/-- C3 witness: the invariant holds on a concrete state and is preserved by
a concrete add + rename sequence. -/
theorem claim_C3_witness :
    stInvB wState = true ∧
    stInvB (applyKOps [KOp.add 0 .obj (some "b") .str, KOp.ren 0 1 "z"] wState) = true :=
  ⟨by decide, (claim_C3_key_uniqueness wState (by decide)).1 _⟩

/-! ### Round trip: build then read back -/

mutual

theorem height_le_sizeV : ∀ v : JsonValue, heightV v ≤ sizeV v
  | .obj es => by
    have h := height_le_sizeEntries es
    simp only [heightV, sizeV]
    omega
  | .arr vs => by
    have h := height_le_sizeItems vs
    simp only [heightV, sizeV]
    omega
  | .str s => le_refl _
  | .num n => le_refl _
  | .bool b => le_refl _
  | .null => le_refl _

theorem height_le_sizeItems : ∀ vs : List JsonValue, heightItems vs ≤ sizeItems vs
  | [] => le_refl _
  | v :: vs => by
    have h1 := height_le_sizeV v
    have h2 := height_le_sizeItems vs
    simp only [heightItems, sizeItems]
    omega

theorem height_le_sizeEntries : ∀ es : List (String × JsonValue),
    heightEntries es ≤ sizeEntries es
  | [] => le_refl _
  | e :: es => by
    have h1 := height_le_sizeV e.2
    have h2 := height_le_sizeEntries es
    simp only [heightEntries, sizeEntries]
    omega

end

mutual

theorem buildNode_spec : ∀ (v : JsonValue) (nodes : NodeMap) (c : Nat),
    (buildNode v nodes c).1 = c ∧
    c < (buildNode v nodes c).2.2 ∧
    (∀ k, (k < c ∨ (buildNode v nodes c).2.2 ≤ k) →
      lookupN (buildNode v nodes c).2.1 k = lookupN nodes k) ∧
    ((∀ k ∈ keysN nodes, k < c) →
      ((buildNode v nodes c).2.1.length = nodes.length + sizeV v ∧
       ∀ k ∈ keysN (buildNode v nodes c).2.1,
         k ∈ keysN nodes ∨ (c ≤ k ∧ k < (buildNode v nodes c).2.2))) ∧
    (∀ (fuel : Nat) (m' : NodeMap), heightV v ≤ fuel →
      (∀ k, c ≤ k → k < (buildNode v nodes c).2.2 →
        lookupN m' k = lookupN (buildNode v nodes c).2.1 k) →
      buildValueM fuel m' c = v)
  | .obj es, nodes, c => by
    obtain ⟨hBe, hCe, hDe, hEe⟩ := buildNodeEntries_spec es nodes (c + 1)
    dsimp only [buildNode]
    refine ⟨rfl, by omega, ?_, ?_, ?_⟩
    · intro k hk
      rw [lookup_insertN, if_neg (by omega)]
      exact hCe k (by omega)
    · intro hb
      have hb' : ∀ k ∈ keysN nodes, k < c + 1 := fun k hk => Nat.lt_succ_of_lt (hb k hk)
      obtain ⟨hlen, hkeys⟩ := hDe hb'
      have hcnot : c ∉ keysN (buildNodeEntries es nodes (c + 1)).2.1 := by
        intro hc
        rcases hkeys c hc with h' | h'
        · exact absurd (hb c h') (lt_irrefl c)
        · omega
      constructor
      · rw [length_insertN_of_not_mem _ hcnot, hlen]
        simp only [sizeV]
        omega
      · intro k hk
        rcases keysN_insertN hk with h' | h'
        · rcases hkeys k h' with h'' | h''
          · exact Or.inl h''
          · exact Or.inr ⟨by omega, h''.2⟩
        · subst h'
          exact Or.inr ⟨le_refl _, by omega⟩
    · intro fuel m' hf hagree
      cases fuel with
      | zero => simp [heightV] at hf
      | succ f =>
        have hle : heightEntries es ≤ f := by
          simp only [heightV] at hf
          omega
        have hc_lookup : lookupN m' c =
            some (.obj c (buildNodeEntries es nodes (c + 1)).1) := by
          rw [hagree c (le_refl c) (by omega), lookup_insertN, if_pos rfl]
        simp only [buildValueM, hc_lookup]
        rw [hEe f m' hle (fun k hk1 hk2 => by
          rw [hagree k (by omega) hk2, lookup_insertN, if_neg (by omega)])]
  | .arr vs, nodes, c => by
    obtain ⟨hBl, hCl, hDl, hEl⟩ := buildNodeList_spec vs nodes (c + 1)
    dsimp only [buildNode]
    refine ⟨rfl, by omega, ?_, ?_, ?_⟩
    · intro k hk
      rw [lookup_insertN, if_neg (by omega)]
      exact hCl k (by omega)
    · intro hb
      have hb' : ∀ k ∈ keysN nodes, k < c + 1 := fun k hk => Nat.lt_succ_of_lt (hb k hk)
      obtain ⟨hlen, hkeys⟩ := hDl hb'
      have hcnot : c ∉ keysN (buildNodeList vs nodes (c + 1)).2.1 := by
        intro hc
        rcases hkeys c hc with h' | h'
        · exact absurd (hb c h') (lt_irrefl c)
        · omega
      constructor
      · rw [length_insertN_of_not_mem _ hcnot, hlen]
        simp only [sizeV]
        omega
      · intro k hk
        rcases keysN_insertN hk with h' | h'
        · rcases hkeys k h' with h'' | h''
          · exact Or.inl h''
          · exact Or.inr ⟨by omega, h''.2⟩
        · subst h'
          exact Or.inr ⟨le_refl _, by omega⟩
    · intro fuel m' hf hagree
      cases fuel with
      | zero => simp [heightV] at hf
      | succ f =>
        have hle : heightItems vs ≤ f := by
          simp only [heightV] at hf
          omega
        have hc_lookup : lookupN m' c =
            some (.arr c (buildNodeList vs nodes (c + 1)).1) := by
          rw [hagree c (le_refl c) (by omega), lookup_insertN, if_pos rfl]
        simp only [buildValueM, hc_lookup]
        rw [hEl f m' hle (fun k hk1 hk2 => by
          rw [hagree k (by omega) hk2, lookup_insertN, if_neg (by omega)])]
  | .str s, nodes, c => by
    dsimp only [buildNode]
    refine ⟨rfl, Nat.lt_succ_self c, ?_, ?_, ?_⟩
    · intro k hk
      rw [lookup_insertN, if_neg (by omega)]
    · intro hb
      have hcnot : c ∉ keysN nodes := fun hc => absurd (hb c hc) (lt_irrefl c)
      refine ⟨by rw [length_insertN_of_not_mem _ hcnot]; rfl, ?_⟩
      intro k hk
      rcases keysN_insertN hk with h' | h'
      · exact Or.inl h'
      · subst h'
        exact Or.inr ⟨le_refl _, Nat.lt_succ_self _⟩
    · intro fuel m' hf hagree
      cases fuel with
      | zero => simp [heightV] at hf
      | succ f =>
        have hc_lookup : lookupN m' c = some (.str c s) := by
          rw [hagree c (le_refl c) (Nat.lt_succ_self c), lookup_insertN, if_pos rfl]
        simp [buildValueM, hc_lookup]
  | .num n, nodes, c => by
    dsimp only [buildNode]
    refine ⟨rfl, Nat.lt_succ_self c, ?_, ?_, ?_⟩
    · intro k hk
      rw [lookup_insertN, if_neg (by omega)]
    · intro hb
      have hcnot : c ∉ keysN nodes := fun hc => absurd (hb c hc) (lt_irrefl c)
      refine ⟨by rw [length_insertN_of_not_mem _ hcnot]; rfl, ?_⟩
      intro k hk
      rcases keysN_insertN hk with h' | h'
      · exact Or.inl h'
      · subst h'
        exact Or.inr ⟨le_refl _, Nat.lt_succ_self _⟩
    · intro fuel m' hf hagree
      cases fuel with
      | zero => simp [heightV] at hf
      | succ f =>
        have hc_lookup : lookupN m' c = some (.num c n) := by
          rw [hagree c (le_refl c) (Nat.lt_succ_self c), lookup_insertN, if_pos rfl]
        simp [buildValueM, hc_lookup]
  | .bool b, nodes, c => by
    dsimp only [buildNode]
    refine ⟨rfl, Nat.lt_succ_self c, ?_, ?_, ?_⟩
    · intro k hk
      rw [lookup_insertN, if_neg (by omega)]
    · intro hb
      have hcnot : c ∉ keysN nodes := fun hc => absurd (hb c hc) (lt_irrefl c)
      refine ⟨by rw [length_insertN_of_not_mem _ hcnot]; rfl, ?_⟩
      intro k hk
      rcases keysN_insertN hk with h' | h'
      · exact Or.inl h'
      · subst h'
        exact Or.inr ⟨le_refl _, Nat.lt_succ_self _⟩
    · intro fuel m' hf hagree
      cases fuel with
      | zero => simp [heightV] at hf
      | succ f =>
        have hc_lookup : lookupN m' c = some (.bool c b) := by
          rw [hagree c (le_refl c) (Nat.lt_succ_self c), lookup_insertN, if_pos rfl]
        simp [buildValueM, hc_lookup]
  | .null, nodes, c => by
    dsimp only [buildNode]
    refine ⟨rfl, Nat.lt_succ_self c, ?_, ?_, ?_⟩
    · intro k hk
      rw [lookup_insertN, if_neg (by omega)]
    · intro hb
      have hcnot : c ∉ keysN nodes := fun hc => absurd (hb c hc) (lt_irrefl c)
      refine ⟨by rw [length_insertN_of_not_mem _ hcnot]; rfl, ?_⟩
      intro k hk
      rcases keysN_insertN hk with h' | h'
      · exact Or.inl h'
      · subst h'
        exact Or.inr ⟨le_refl _, Nat.lt_succ_self _⟩
    · intro fuel m' hf hagree
      cases fuel with
      | zero => simp [heightV] at hf
      | succ f =>
        have hc_lookup : lookupN m' c = some (.null c) := by
          rw [hagree c (le_refl c) (Nat.lt_succ_self c), lookup_insertN, if_pos rfl]
        simp [buildValueM, hc_lookup]

theorem buildNodeList_spec : ∀ (vs : List JsonValue) (nodes : NodeMap) (c : Nat),
    c ≤ (buildNodeList vs nodes c).2.2 ∧
    (∀ k, (k < c ∨ (buildNodeList vs nodes c).2.2 ≤ k) →
      lookupN (buildNodeList vs nodes c).2.1 k = lookupN nodes k) ∧
    ((∀ k ∈ keysN nodes, k < c) →
      ((buildNodeList vs nodes c).2.1.length = nodes.length + sizeItems vs ∧
       ∀ k ∈ keysN (buildNodeList vs nodes c).2.1,
         k ∈ keysN nodes ∨ (c ≤ k ∧ k < (buildNodeList vs nodes c).2.2))) ∧
    (∀ (fuel : Nat) (m' : NodeMap), heightItems vs ≤ fuel →
      (∀ k, c ≤ k → k < (buildNodeList vs nodes c).2.2 →
        lookupN m' k = lookupN (buildNodeList vs nodes c).2.1 k) →
      (buildNodeList vs nodes c).1.map (buildValueM fuel m') = vs)
  | [], nodes, c => by
    dsimp only [buildNodeList]
    exact ⟨le_refl _, fun k hk => rfl,
      fun hb => ⟨by simp [sizeItems], fun k hk => Or.inl hk⟩,
      fun fuel m' hf hagree => rfl⟩
  | v :: vs, nodes, c => by
    obtain ⟨hA1, hB1, hC1, hD1, hE1⟩ := buildNode_spec v nodes c
    obtain ⟨hB2, hC2, hD2, hE2⟩ :=
      buildNodeList_spec vs (buildNode v nodes c).2.1 (buildNode v nodes c).2.2
    dsimp only [buildNodeList]
    refine ⟨by omega, ?_, ?_, ?_⟩
    · intro k hk
      rw [hC2 k (by omega), hC1 k (by omega)]
    · intro hb
      have hb1 : ∀ k ∈ keysN (buildNode v nodes c).2.1, k < (buildNode v nodes c).2.2 := by
        intro k hk
        rcases (hD1 hb).2 k hk with h' | h'
        · exact lt_trans (hb k h') hB1
        · exact h'.2
      obtain ⟨hlen2, hkeys2⟩ := hD2 hb1
      obtain ⟨hlen1, hkeys1⟩ := hD1 hb
      constructor
      · rw [hlen2, hlen1]
        simp only [sizeItems]
        omega
      · intro k hk
        rcases hkeys2 k hk with h' | h'
        · rcases hkeys1 k h' with h'' | h''
          · exact Or.inl h''
          · exact Or.inr ⟨h''.1, by omega⟩
        · exact Or.inr ⟨by omega, h'.2⟩
    · intro fuel m' hf hagree
      simp only [heightItems] at hf
      have hhead : buildValueM fuel m' (buildNode v nodes c).1 = v := by
        rw [hA1]
        refine hE1 fuel m' (by omega) ?_
        intro k hk1 hk2
        rw [hagree k hk1 (by omega), hC2 k (Or.inl hk2)]
      have htail :
          (buildNodeList vs (buildNode v nodes c).2.1 (buildNode v nodes c).2.2).1.map
            (buildValueM fuel m') = vs := by
        refine hE2 fuel m' (by omega) ?_
        intro k hk1 hk2
        exact hagree k (by omega) hk2
      rw [List.map_cons, hhead, htail]

theorem buildNodeEntries_spec : ∀ (es : List (String × JsonValue)) (nodes : NodeMap) (c : Nat),
    c ≤ (buildNodeEntries es nodes c).2.2 ∧
    (∀ k, (k < c ∨ (buildNodeEntries es nodes c).2.2 ≤ k) →
      lookupN (buildNodeEntries es nodes c).2.1 k = lookupN nodes k) ∧
    ((∀ k ∈ keysN nodes, k < c) →
      ((buildNodeEntries es nodes c).2.1.length = nodes.length + sizeEntries es ∧
       ∀ k ∈ keysN (buildNodeEntries es nodes c).2.1,
         k ∈ keysN nodes ∨ (c ≤ k ∧ k < (buildNodeEntries es nodes c).2.2))) ∧
    (∀ (fuel : Nat) (m' : NodeMap), heightEntries es ≤ fuel →
      (∀ k, c ≤ k → k < (buildNodeEntries es nodes c).2.2 →
        lookupN m' k = lookupN (buildNodeEntries es nodes c).2.1 k) →
      (buildNodeEntries es nodes c).1.map (fun e => (e.1, buildValueM fuel m' e.2)) = es)
  | [], nodes, c => by
    dsimp only [buildNodeEntries]
    exact ⟨le_refl _, fun k hk => rfl,
      fun hb => ⟨by simp [sizeEntries], fun k hk => Or.inl hk⟩,
      fun fuel m' hf hagree => rfl⟩
  | (key, v) :: es, nodes, c => by
    obtain ⟨hA1, hB1, hC1, hD1, hE1⟩ := buildNode_spec v nodes c
    obtain ⟨hB2, hC2, hD2, hE2⟩ :=
      buildNodeEntries_spec es (buildNode v nodes c).2.1 (buildNode v nodes c).2.2
    dsimp only [buildNodeEntries]
    refine ⟨by omega, ?_, ?_, ?_⟩
    · intro k hk
      rw [hC2 k (by omega), hC1 k (by omega)]
    · intro hb
      have hb1 : ∀ k ∈ keysN (buildNode v nodes c).2.1, k < (buildNode v nodes c).2.2 := by
        intro k hk
        rcases (hD1 hb).2 k hk with h' | h'
        · exact lt_trans (hb k h') hB1
        · exact h'.2
      obtain ⟨hlen2, hkeys2⟩ := hD2 hb1
      obtain ⟨hlen1, hkeys1⟩ := hD1 hb
      constructor
      · rw [hlen2, hlen1]
        simp only [sizeEntries]
        omega
      · intro k hk
        rcases hkeys2 k hk with h' | h'
        · rcases hkeys1 k h' with h'' | h''
          · exact Or.inl h''
          · exact Or.inr ⟨h''.1, by omega⟩
        · exact Or.inr ⟨by omega, h'.2⟩
    · intro fuel m' hf hagree
      simp only [heightEntries] at hf
      have hhead : buildValueM fuel m' (buildNode v nodes c).1 = v := by
        rw [hA1]
        refine hE1 fuel m' (by omega) ?_
        intro k hk1 hk2
        rw [hagree k hk1 (by omega), hC2 k (Or.inl hk2)]
      have htail :
          (buildNodeEntries es (buildNode v nodes c).2.1 (buildNode v nodes c).2.2).1.map
            (fun e => (e.1, buildValueM fuel m' e.2)) = es := by
        refine hE2 fuel m' (by omega) ?_
        intro k hk1 hk2
        exact hagree k (by omega) hk2
      rw [List.map_cons, htail]
      dsimp only
      rw [hhead]

end

/-- C1: building a document from any plain value and converting it back
yields a structurally equal value — same object keys in the same order,
same array element order, same scalar payloads — for every starting value
of the id counter. -/
theorem claim_C1_roundtrip (v : JsonValue) (c0 : Nat) :
    documentToJson (buildDocumentFromValue v c0).1 = v := by
  obtain ⟨hA, hB, hC, hD, hE⟩ := buildNode_spec v [] c0
  unfold documentToJson buildDocumentFromValue
  dsimp only
  rw [hA]
  obtain ⟨hlen, _⟩ := hD (by intro k hk; simp [keysN] at hk)
  refine hE _ _ ?_ (fun k hk1 hk2 => rfl)
  rw [hlen]
  have := height_le_sizeV v
  simp only [List.length_nil]
  omega

/-! ### Spanning-tree lemmas for cascading delete and sort -/

theorem ids_len_pos (t : DTree) : 1 ≤ (idsOf t).length := by
  cases t <;> simp [idsOf]

theorem root_mem_ids (t : DTree) : t.root ∈ idsOf t := by
  cases t <;> simp [idsOf, DTree.root]

theorem matchesB_leaf {m : NodeMap} {i : Nat} (h : matchesB m (.leaf i) = true) :
    ∃ n, lookupN m i = some n ∧ isContainer n = false := by
  unfold matchesB at h
  cases hn : lookupN m i with
  | none => rw [hn] at h; cases h
  | some n =>
    rw [hn] at h
    exact ⟨n, rfl, by simpa using h⟩

theorem matchesB_branch {m : NodeMap} {i : Nat} {cs : List DTree}
    (h : matchesB m (.branch i cs) = true) :
    ∃ n, lookupN m i = some n ∧ isContainer n = true ∧
      (refsOf n).Perm (cs.map DTree.root) ∧ matchesL m cs = true := by
  unfold matchesB at h
  cases hn : lookupN m i with
  | none => rw [hn] at h; cases h
  | some n =>
    rw [hn] at h
    simp only [Bool.and_eq_true] at h
    exact ⟨n, rfl, h.1.1, List.isPerm_iff.mp h.1.2, h.2⟩

theorem matchesB_branch_intro {m : NodeMap} {i : Nat} {cs : List DTree} {n : JsonNode}
    (hn : lookupN m i = some n) (hc : isContainer n = true)
    (hp : (refsOf n).Perm (cs.map DTree.root)) (hl : matchesL m cs = true) :
    matchesB m (.branch i cs) = true := by
  unfold matchesB
  rw [hn]
  simp only [Bool.and_eq_true]
  exact ⟨⟨hc, List.isPerm_iff.mpr hp⟩, hl⟩

theorem matchesL_mem {m : NodeMap} : ∀ {ts : List DTree}, matchesL m ts = true →
    ∀ t ∈ ts, matchesB m t = true := by
  intro ts
  induction ts with
  | nil => intro _ t ht; cases ht
  | cons t' ts ih =>
    intro h t ht
    simp only [matchesL, Bool.and_eq_true] at h
    rcases List.mem_cons.mp ht with h' | h'
    · subst h'; exact h.1
    · exact ih h.2 t h'

theorem matchesL_intro {m : NodeMap} : ∀ {ts : List DTree},
    (∀ t ∈ ts, matchesB m t = true) → matchesL m ts = true := by
  intro ts
  induction ts with
  | nil => intro _; rfl
  | cons t' ts ih =>
    intro h
    simp only [matchesL, Bool.and_eq_true]
    exact ⟨h t' (List.mem_cons_self _ _), ih (fun u hu => h u (List.mem_cons_of_mem _ hu))⟩

theorem forall2_map_root : ∀ cs : List DTree,
    List.Forall₂ (fun (r : Nat) (t' : DTree) => r = t'.root) (cs.map DTree.root) cs
  | [] => List.Forall₂.nil
  | _ :: cs => List.Forall₂.cons rfl (forall2_map_root cs)

theorem idsOfL_eq_flatten : ∀ ts : List DTree, idsOfL ts = (ts.map idsOf).flatten
  | [] => rfl
  | t :: ts => by
    simp only [idsOfL, List.map_cons, List.flatten_cons]
    rw [idsOfL_eq_flatten ts]

theorem perm_idsOfL {ts ts' : List DTree} (h : ts.Perm ts') :
    (idsOfL ts).Perm (idsOfL ts') := by
  rw [idsOfL_eq_flatten, idsOfL_eq_flatten]
  exact (h.map idsOf).flatten

theorem mem_idsOfL_of_mem {t' : DTree} : ∀ {ts : List DTree}, t' ∈ ts →
    ∀ x ∈ idsOf t', x ∈ idsOfL ts := by
  intro ts
  induction ts with
  | nil => intro h; cases h
  | cons t ts ih =>
    intro h x hx
    simp only [idsOfL, List.mem_append]
    rcases List.mem_cons.mp h with h' | h'
    · subst h'; exact Or.inl hx
    · exact Or.inr (ih h' x hx)

theorem len_idsOf_le_of_mem {t' : DTree} : ∀ {ts : List DTree}, t' ∈ ts →
    (idsOf t').length ≤ (idsOfL ts).length := by
  intro ts
  induction ts with
  | nil => intro h; cases h
  | cons t ts ih =>
    intro h
    simp only [idsOfL, List.length_append]
    rcases List.mem_cons.mp h with h' | h'
    · subst h'; omega
    · have := ih h'; omega

theorem refsOf_scalar {n : JsonNode} (h : isContainer n = false) : refsOf n = [] := by
  cases n <;> simp [refsOf, isContainer] at h ⊢

mutual

theorem matchesB_congr : ∀ (t : DTree) (m m' : NodeMap),
    (∀ k ∈ idsOf t, lookupN m' k = lookupN m k) →
    matchesB m t = true → matchesB m' t = true
  | .branch i cs, m, m', hag, h => by
    obtain ⟨n, hn, hc, hp, hl⟩ := matchesB_branch h
    have hn' : lookupN m' i = some n := by
      rw [hag i (by simp [idsOf])]
      exact hn
    refine matchesB_branch_intro hn' hc hp ?_
    refine matchesL_intro (fun t' ht' => ?_)
    refine matchesB_congr t' m m' ?_ (matchesL_mem hl t' ht')
    intro k hk
    refine hag k ?_
    simp only [idsOf, List.mem_cons]
    exact Or.inr (mem_idsOfL_of_mem ht' k hk)
  | .leaf i, m, m', hag, h => by
    unfold matchesB at h ⊢
    rw [hag i (by simp [idsOf])]
    exact h

end

mutual

theorem matchesB_keys : ∀ (t : DTree) (m : NodeMap), matchesB m t = true →
    ∀ k ∈ idsOf t, k ∈ keysN m
  | .branch i cs, m, h => by
    obtain ⟨n, hn, _, _, hl⟩ := matchesB_branch h
    intro k hk
    simp only [idsOf, List.mem_cons] at hk
    rcases hk with hk | hk
    · subst hk; exact lookupN_mem_keys hn
    · exact matchesL_keys cs m hl k hk
  | .leaf i, m, h => by
    obtain ⟨n, hn, _⟩ := matchesB_leaf h
    intro k hk
    simp only [idsOf, List.mem_singleton] at hk
    subst hk
    exact lookupN_mem_keys hn

theorem matchesL_keys : ∀ (ts : List DTree) (m : NodeMap), matchesL m ts = true →
    ∀ k ∈ idsOfL ts, k ∈ keysN m
  | [], m, _ => by intro k hk; cases hk
  | t :: ts, m, h => by
    simp only [matchesL, Bool.and_eq_true] at h
    intro k hk
    simp only [idsOfL, List.mem_append] at hk
    rcases hk with hk | hk
    · exact matchesB_keys t m h.1 k hk
    · exact matchesL_keys ts m h.2 k hk

end

theorem ids_len_le_map_len {t : DTree} {m : NodeMap} (hm : matchesB m t = true)
    (hnd : (idsOf t).Nodup) : (idsOf t).length ≤ m.length := by
  have h1 : (idsOf t).length ≤ (keysN m).length :=
    nodup_subset_length hnd (fun x hx => matchesB_keys t m hm x hx)
  simpa [keysN] using h1

/-- Pointwise characterization of `removeSubtree`: on a region of the map
spanned by a duplicate-free tree, and with enough recursion budget, it
erases exactly the tree's ids. -/
theorem removeSpec : ∀ fuel : Nat,
    (∀ (t : DTree) (m : NodeMap), matchesB m t = true → (idsOf t).Nodup →
      (idsOf t).length ≤ fuel →
      ∀ k, lookupN (removeSubtree fuel m t.root) k =
        if k ∈ idsOf t then none else lookupN m k) ∧
    (∀ (ts : List DTree) (m : NodeMap), (∀ t ∈ ts, matchesB m t = true) →
      (idsOfL ts).Nodup → (∀ t ∈ ts, (idsOf t).length ≤ fuel) →
      ∀ k, lookupN (ts.foldl (fun acc t => removeSubtree fuel acc t.root) m) k =
        if k ∈ idsOfL ts then none else lookupN m k) := by
  intro fuel
  induction fuel with
  | zero =>
    constructor
    · intro t m _ _ hlen
      have := ids_len_pos t
      omega
    · intro ts m hms hnd hlens k
      cases ts with
      | nil => simp [idsOfL]
      | cons t ts =>
        have := ids_len_pos t
        have := hlens t (List.mem_cons_self _ _)
        omega
  | succ f IH =>
    obtain ⟨IHT, IHL⟩ := IH
    have T : ∀ (t : DTree) (m : NodeMap), matchesB m t = true → (idsOf t).Nodup →
        (idsOf t).length ≤ f + 1 →
        ∀ k, lookupN (removeSubtree (f + 1) m t.root) k =
          if k ∈ idsOf t then none else lookupN m k := by
      intro t m hm hnd hlen k
      cases t with
      | leaf i =>
        obtain ⟨n, hn, hsc⟩ := matchesB_leaf hm
        show lookupN (removeSubtree (f + 1) m i) k = _
        simp only [removeSubtree, hn, refsOf_scalar hsc, List.foldl_nil]
        rw [lookup_eraseN]
        simp only [idsOf, List.mem_singleton]
      | branch i cs =>
        obtain ⟨n, hn, hcont, hperm, hl⟩ := matchesB_branch hm
        obtain ⟨ts', hts'perm, hfa'⟩ := forall2_of_perm hperm.symm (forall2_map_root cs)
        have hidsperm : (idsOfL cs).Perm (idsOfL ts') := perm_idsOfL hts'perm
        have hndcs : (idsOfL cs).Nodup := by
          simpa [idsOf, List.nodup_cons] using hnd.of_cons
        show lookupN (removeSubtree (f + 1) m i) k = _
        simp only [removeSubtree, hn]
        have hfold : (refsOf n).foldl (fun acc r => removeSubtree f acc r) m =
            ts'.foldl (fun acc t' => removeSubtree f acc t'.root) m :=
          foldl_rel _ _ (fun c a b hab => by rw [hab]) hfa' m
        rw [hfold]
        have happ := IHL ts' m
          (fun t' ht' => matchesL_mem hl t' (hts'perm.symm.subset ht'))
          (hidsperm.nodup_iff.mp hndcs)
          (fun t' ht' => by
            have h1 := len_idsOf_le_of_mem (hts'perm.symm.subset ht')
            have h2 : (idsOfL cs).length + 1 = (idsOf (DTree.branch i cs)).length := by
              simp [idsOf]
            omega)
        rw [lookup_eraseN, happ k]
        have hmemiff : k ∈ idsOfL ts' ↔ k ∈ idsOfL cs := (hidsperm.mem_iff).symm
        simp only [idsOf, List.mem_cons]
        by_cases hk : k = i
        · simp [hk]
        · by_cases hkc : k ∈ idsOfL cs
          · simp [hk, hkc, hmemiff.mpr hkc]
          · have : ¬ k ∈ idsOfL ts' := fun h => hkc (hmemiff.mp h)
            simp [hk, hkc, this]
    refine ⟨T, ?_⟩
    intro ts
    induction ts with
    | nil =>
      intro m _ _ _ k
      simp [idsOfL]
    | cons t ts ihts =>
      intro m hms hnd hlens k
      simp only [List.foldl_cons]
      have hndt : (idsOf t).Nodup := by
        rw [idsOfL] at hnd
        exact hnd.of_append_left
      have hdisj : ∀ x ∈ idsOfL ts, x ∉ idsOf t := by
        rw [idsOfL] at hnd
        intro x hx hxt
        exact (List.disjoint_of_nodup_append hnd) hxt hx
      have h1 := T t m (hms t (List.mem_cons_self _ _)) hndt (hlens t (List.mem_cons_self _ _))
      have hms' : ∀ t' ∈ ts, matchesB (removeSubtree (f + 1) m t.root) t' = true := by
        intro t' ht'
        refine matchesB_congr t' m _ ?_ (hms t' (List.mem_cons_of_mem _ ht'))
        intro x hx
        rw [h1 x, if_neg (hdisj x (mem_idsOfL_of_mem ht' x hx))]
      have hnd' : (idsOfL ts).Nodup := by
        rw [idsOfL] at hnd
        exact hnd.of_append_right
      have h2 := ihts (removeSubtree (f + 1) m t.root) hms' hnd'
        (fun t' ht' => hlens t' (List.mem_cons_of_mem _ ht')) k
      rw [h2, h1 k]
      simp only [idsOfL, List.mem_append]
      by_cases hk1 : k ∈ idsOfL ts
      · simp [hk1]
      · by_cases hk2 : k ∈ idsOf t <;> simp [hk1, hk2]

theorem refs_strip {p : JsonNode} {c : Nat} :
    ∀ r ∈ refsOf (stripChildRef p c), r ∈ refsOf p ∧ r ≠ c := by
  cases p with
  | obj i es =>
    intro r hr
    simp only [stripChildRef, refsOf] at hr ⊢
    obtain ⟨e, he, hre⟩ := List.mem_map.mp hr
    have hef := List.mem_filter.mp he
    refine ⟨List.mem_map.mpr ⟨e, hef.1, hre⟩, ?_⟩
    have : e.2 ≠ c := by simpa using hef.2
    rw [← hre]
    exact this
  | arr i its =>
    intro r hr
    simp only [stripChildRef, refsOf] at hr ⊢
    have hef := List.mem_filter.mp hr
    exact ⟨hef.1, by simpa using hef.2⟩
  | str i v => intro r hr; cases hr
  | num i v => intro r hr; cases hr
  | bool i v => intro r hr; cases hr
  | null i => intro r hr; cases hr

theorem onlyRef_spec {m : NodeMap} {tIds : List Nat} {parentId childId : Nat}
    (h : onlyRefB m tIds parentId childId = true) :
    ∀ kv ∈ m, kv.1 ∉ tIds → ∀ r ∈ refsOf kv.2, r ∈ tIds → kv.1 = parentId ∧ r = childId := by
  intro kv hkv hnot r hr hrin
  have h' := List.all_eq_true.mp h kv hkv
  simp only [Bool.or_eq_true, decide_eq_true_eq, List.all_eq_true, Bool.and_eq_true] at h'
  rcases h' with h' | h'
  · exact absurd h' hnot
  · rcases h' r hr with h'' | h''
    · exact absurd hrin h''
    · exact h''

/-- C2: deleting `childId` from `parentId` on a document whose region at
`childId` is spanned by a duplicate-free tree removes exactly the subtree's
ids from the node map, filters the child's entry out of the parent's
sequence, leaves every other id bound to its unchanged node, and leaves no
reference into the deleted subtree dangling. -/
theorem claim_C2_cascading_delete (s : EditorState) (d : DocumentState)
    (parentId childId : Nat) (t : DTree) (p : JsonNode)
    (hdoc : s.doc = some d)
    (hm : matchesB d.nodes t = true)
    (hroot : t.root = childId)
    (hnd : (idsOf t).Nodup)
    (hp : lookupN d.nodes parentId = some p)
    (hpnot : parentId ∉ idsOf t)
    (_hchild : childRefB p childId = true)
    (honly : onlyRefB d.nodes (idsOf t) parentId childId = true) :
    ∃ d' : DocumentState, (deleteNode s parentId childId).doc = some d' ∧
      d'.rootId = d.rootId ∧
      (∀ k ∈ idsOf t, lookupN d'.nodes k = none) ∧
      (∀ k, k ∉ idsOf t → k ≠ parentId → lookupN d'.nodes k = lookupN d.nodes k) ∧
      lookupN d'.nodes parentId = some (stripChildRef p childId) ∧
      (∀ k n, lookupN d'.nodes k = some n → ∀ r ∈ refsOf n, r ∉ idsOf t) := by
  have hlen : (idsOf t).length ≤ d.nodes.length + 1 :=
    le_trans (ids_len_le_map_len hm hnd) (Nat.le_succ _)
  have hrem := (removeSpec (d.nodes.length + 1)).1 t d.nodes hm hnd hlen
  rw [hroot] at hrem
  have hpm1 : lookupN (removeSubtree (d.nodes.length + 1) d.nodes childId) parentId = some p := by
    rw [hrem parentId, if_neg hpnot]
    exact hp
  have hsome : (lookupN (removeSubtree (d.nodes.length + 1) d.nodes childId) parentId).isSome
      = true := by
    rw [hpm1]
    rfl
  unfold deleteNode
  rw [hdoc]
  dsimp only
  rw [hp]
  dsimp only
  rw [if_pos hsome]
  refine ⟨_, (finalize_proj _ _ _).1, rfl, ?_, ?_, ?_, ?_⟩
  · intro k hk
    have hkp : ¬ parentId = k := fun h => hpnot (h ▸ hk)
    rw [lookup_insertN, if_neg hkp, hrem k, if_pos hk]
  · intro k hk hkp
    have hkp' : ¬ parentId = k := fun h => hkp h.symm
    rw [lookup_insertN, if_neg hkp', hrem k, if_neg hk]
  · rw [lookup_insertN, if_pos rfl]
  · intro k n hkn r hr
    intro hrin
    by_cases hkp : parentId = k
    · subst hkp
      rw [lookup_insertN, if_pos rfl] at hkn
      cases hkn
      have := refs_strip r hr
      rcases onlyRef_spec honly (parentId, p) (lookupN_mem hp) hpnot r this.1 hrin with ⟨_, hrc⟩
      exact this.2 hrc
    · rw [lookup_insertN, if_neg hkp, hrem k] at hkn
      by_cases hk : k ∈ idsOf t
      · rw [if_pos hk] at hkn
        cases hkn
      · rw [if_neg hk] at hkn
        have hkm := lookupN_mem hkn
        rcases onlyRef_spec honly (k, n) hkm hk r hr hrin with ⟨hkp', _⟩
        exact hkp hkp'.symm

/-- C2 witness: delete the numeric leaf bound to key `a` in the concrete
document; its id disappears, the parent's entry list is filtered. -/
theorem claim_C2_witness :
    matchesB wDoc.nodes (.leaf 1) = true ∧
    (∃ d' : DocumentState, (deleteNode wState 0 1).doc = some d' ∧
      d'.rootId = wDoc.rootId ∧
      (∀ k ∈ idsOf (.leaf 1), lookupN d'.nodes k = none) ∧
      (∀ k, k ∉ idsOf (.leaf 1) → k ≠ 0 → lookupN d'.nodes k = lookupN wDoc.nodes k) ∧
      lookupN d'.nodes 0 = some (stripChildRef (.obj 0 [("a", 1)]) 1) ∧
      (∀ k n, lookupN d'.nodes k = some n → ∀ r ∈ refsOf n, r ∉ idsOf (.leaf 1))) :=
  ⟨by decide,
   claim_C2_cascading_delete wState wDoc 0 1 (.leaf 1) (.obj 0 [("a", 1)])
     rfl (by decide) rfl (by decide) rfl (by decide) (by decide) (by decide)⟩

/-! ### Sort keys: comparator properties and the sort characterization -/

theorem leChars_total : ∀ a b : List Char, leChars a b = true ∨ leChars b a = true
  | [], _ => Or.inl rfl
  | _ :: _, [] => Or.inr rfl
  | x :: xs, y :: ys => by
    simp only [leChars]
    by_cases h : x.toNat = y.toNat
    · rw [if_pos h, if_pos h.symm]
      exact leChars_total xs ys
    · have h' : ¬ y.toNat = x.toNat := fun hh => h hh.symm
      rw [if_neg h, if_neg h']
      rcases Nat.lt_or_ge x.toNat y.toNat with hlt | hge
      · exact Or.inl (by simpa using hlt)
      · exact Or.inr (by simp only [decide_eq_true_eq]; omega)

theorem leChars_trans : ∀ a b c : List Char,
    leChars a b = true → leChars b c = true → leChars a c = true
  | [], _, _ => by intro _ _; rfl
  | x :: xs, [], _ => by intro h _; cases h
  | x :: xs, y :: ys, [] => by intro _ h2; cases h2
  | x :: xs, y :: ys, z :: zs => by
    simp only [leChars]
    intro h1 h2
    by_cases hxy : x.toNat = y.toNat <;> by_cases hyz : y.toNat = z.toNat
    · have hxz : x.toNat = z.toNat := hxy.trans hyz
      rw [if_pos hxy] at h1
      rw [if_pos hyz] at h2
      rw [if_pos hxz]
      exact leChars_trans xs ys zs h1 h2
    · have hxz : ¬ x.toNat = z.toNat := by rw [hxy]; exact hyz
      rw [if_neg hyz] at h2
      rw [if_neg hxz]
      simp only [decide_eq_true_eq] at h2 ⊢
      omega
    · have hxz : ¬ x.toNat = z.toNat := by
        intro hh
        exact hxy (hh.trans hyz.symm)
      rw [if_neg hxy] at h1
      rw [if_neg hxz]
      simp only [decide_eq_true_eq] at h1 ⊢
      omega
    · rw [if_neg hxy] at h1
      rw [if_neg hyz] at h2
      simp only [decide_eq_true_eq] at h1 h2
      have hxz : ¬ x.toNat = z.toNat := by omega
      rw [if_neg hxz]
      simp only [decide_eq_true_eq]
      omega

theorem entryLe_trans : ∀ a b c : String × Nat,
    entryLe a b = true → entryLe b c = true → entryLe a c = true :=
  fun a b c h1 h2 => leChars_trans a.1.data b.1.data c.1.data h1 h2

theorem entryLe_total (a b : String × Nat) : (entryLe a b || entryLe b a) = true := by
  rcases leChars_total a.1.data b.1.data with h | h <;> simp [entryLe, h]

theorem sortEntries_perm (es : List (String × Nat)) : (sortEntries es).Perm es :=
  List.mergeSort_perm es entryLe

theorem sortEntries_sorted (es : List (String × Nat)) :
    List.Pairwise (fun a b => entryLe a b = true) (sortEntries es) :=
  List.sorted_mergeSort entryLe_trans entryLe_total es

theorem sortEntries_idem (es : List (String × Nat)) :
    sortEntries (sortEntries es) = sortEntries es :=
  List.mergeSort_of_sorted (sortEntries_sorted es)

theorem sortNode1_idem (n : JsonNode) : sortNode1 (sortNode1 n) = sortNode1 n := by
  cases n <;> simp [sortNode1, sortEntries_idem]

theorem isContainer_sortNode1 (n : JsonNode) : isContainer (sortNode1 n) = isContainer n := by
  cases n <;> rfl

theorem sortNode1_scalar {n : JsonNode} (h : isContainer n = false) : sortNode1 n = n := by
  cases n <;> first
    | rfl
    | (simp [isContainer] at h)

theorem refs_sortNode1 (n : JsonNode) : (refsOf (sortNode1 n)).Perm (refsOf n) := by
  cases n with
  | obj i es => exact (sortEntries_perm es).map Prod.snd
  | arr i its => exact List.Perm.refl _
  | str i v => exact List.Perm.refl _
  | num i v => exact List.Perm.refl _
  | bool i v => exact List.Perm.refl _
  | null i => exact List.Perm.refl _

theorem sapprox_refl (m : NodeMap) : SApprox m m := fun _ => Or.inl rfl

theorem sapprox_trans {m1 m2 m3 : NodeMap} (h12 : SApprox m1 m2) (h23 : SApprox m2 m3) :
    SApprox m1 m3 := by
  intro k
  rcases h23 k with h | ⟨i, es, h2, h3⟩
  · rw [h]
    exact h12 k
  · rcases h12 k with h' | ⟨i', es', h1', h2'⟩
    · rw [h'] at h2
      exact Or.inr ⟨i, es, h2, h3⟩
    · rw [h2'] at h2
      injection h2 with h2
      injection h2 with hie hes
      right
      refine ⟨i', es', h1', ?_⟩
      rw [h3, ← hie, ← hes, sortEntries_idem]

theorem sapprox_insert {m : NodeMap} {id i : Nat} {es : List (String × Nat)}
    (h : lookupN m id = some (.obj i es)) :
    SApprox m (insertN m id (.obj i (sortEntries es))) := by
  intro k
  by_cases hk : id = k
  · subst hk
    exact Or.inr ⟨i, es, h, by rw [lookup_insertN, if_pos rfl]⟩
  · left
    rw [lookup_insertN, if_neg hk]

theorem sapprox_foldl {β : Type} (g : NodeMap → β → NodeMap)
    (hg : ∀ acc x, SApprox acc (g acc x)) :
    ∀ (l : List β) (m : NodeMap), SApprox m (l.foldl g m) := by
  intro l
  induction l with
  | nil => intro m; exact sapprox_refl m
  | cons x xs ih =>
    intro m
    exact sapprox_trans (hg m x) (ih (g m x))

theorem sortGo_sapprox : ∀ (fuel : Nat) (m : NodeMap) (id : Nat), SApprox m (sortGo fuel m id) := by
  intro fuel
  induction fuel with
  | zero => intro m id; exact sapprox_refl m
  | succ f ih =>
    intro m id
    cases hn : lookupN m id with
    | none =>
      simp only [sortGo, hn]
      exact sapprox_refl m
    | some n =>
      cases n with
      | obj i es =>
        simp only [sortGo, hn]
        exact sapprox_trans (sapprox_insert hn)
          (sapprox_foldl _ (fun acc (e : String × Nat) => ih acc e.2) _ _)
      | arr i its =>
        simp only [sortGo, hn]
        exact sapprox_foldl _ (fun acc c => ih acc c) _ _
      | str i v => simp only [sortGo, hn]; exact sapprox_refl m
      | num i v => simp only [sortGo, hn]; exact sapprox_refl m
      | bool i v => simp only [sortGo, hn]; exact sapprox_refl m
      | null i => simp only [sortGo, hn]; exact sapprox_refl m

theorem foldl_length_inv {β : Type} (g : NodeMap → β → NodeMap)
    (hg : ∀ acc x, (g acc x).length = acc.length) :
    ∀ (l : List β) (m : NodeMap), (l.foldl g m).length = m.length := by
  intro l
  induction l with
  | nil => intro m; rfl
  | cons x xs ih =>
    intro m
    rw [List.foldl_cons, ih, hg]

theorem sortGo_length : ∀ (fuel : Nat) (m : NodeMap) (id : Nat),
    (sortGo fuel m id).length = m.length := by
  intro fuel
  induction fuel with
  | zero => intro m id; rfl
  | succ f ih =>
    intro m id
    cases hn : lookupN m id with
    | none => simp only [sortGo, hn]
    | some n =>
      cases n with
      | obj i es =>
        simp only [sortGo, hn]
        rw [foldl_length_inv _ (fun acc (e : String × Nat) => ih acc e.2),
          length_insertN_of_mem _ (lookupN_mem_keys hn)]
      | arr i its =>
        simp only [sortGo, hn]
        rw [foldl_length_inv _ (fun acc c => ih acc c)]
      | str i v => simp only [sortGo, hn]
      | num i v => simp only [sortGo, hn]
      | bool i v => simp only [sortGo, hn]
      | null i => simp only [sortGo, hn]

theorem matches_sortMap : ∀ (t : DTree) (m m' : NodeMap),
    (∀ k ∈ idsOf t, lookupN m' k = (lookupN m k).map sortNode1) →
    matchesB m t = true → matchesB m' t = true
  | .branch i cs, m, m', hag, h => by
    obtain ⟨n, hn, hc, hp, hl⟩ := matchesB_branch h
    have hn' : lookupN m' i = some (sortNode1 n) := by
      rw [hag i (by simp [idsOf]), hn]
      rfl
    refine matchesB_branch_intro hn' (by rw [isContainer_sortNode1]; exact hc)
      ((refs_sortNode1 n).trans hp) ?_
    refine matchesL_intro (fun t' ht' => ?_)
    exact matches_sortMap t' m m'
      (fun k hk => hag k (by
        simp only [idsOf, List.mem_cons]
        exact Or.inr (mem_idsOfL_of_mem ht' k hk)))
      (matchesL_mem hl t' ht')
  | .leaf i, m, m', hag, h => by
    obtain ⟨n, hn, hsc⟩ := matchesB_leaf h
    have hn' : lookupN m' i = some n := by
      rw [hag i (by simp [idsOf]), hn]
      simp [sortNode1_scalar hsc]
    unfold matchesB
    rw [hn']
    simpa using hsc

/-- Pointwise characterization of `sortObject`: on a region spanned by a
duplicate-free tree, with enough budget, every node of the region gets
`sortNode1` applied (objects sorted, everything else untouched) and every
other binding is unchanged. -/
theorem sortSpec : ∀ fuel : Nat,
    (∀ (t : DTree) (m : NodeMap), matchesB m t = true → (idsOf t).Nodup →
      (idsOf t).length ≤ fuel →
      ∀ k, lookupN (sortGo fuel m t.root) k =
        if k ∈ idsOf t then (lookupN m k).map sortNode1 else lookupN m k) ∧
    (∀ (ts : List DTree) (m : NodeMap), (∀ t ∈ ts, matchesB m t = true) →
      (idsOfL ts).Nodup → (∀ t ∈ ts, (idsOf t).length ≤ fuel) →
      ∀ k, lookupN (ts.foldl (fun acc t => sortGo fuel acc t.root) m) k =
        if k ∈ idsOfL ts then (lookupN m k).map sortNode1 else lookupN m k) := by
  intro fuel
  induction fuel with
  | zero =>
    constructor
    · intro t m _ _ hlen
      have := ids_len_pos t
      omega
    · intro ts m hms hnd hlens k
      cases ts with
      | nil => simp [idsOfL]
      | cons t ts =>
        have := ids_len_pos t
        have := hlens t (List.mem_cons_self _ _)
        omega
  | succ f IH =>
    obtain ⟨IHT, IHL⟩ := IH
    have T : ∀ (t : DTree) (m : NodeMap), matchesB m t = true → (idsOf t).Nodup →
        (idsOf t).length ≤ f + 1 →
        ∀ k, lookupN (sortGo (f + 1) m t.root) k =
          if k ∈ idsOf t then (lookupN m k).map sortNode1 else lookupN m k := by
      intro t m hm hnd hlen k
      cases t with
      | leaf i =>
        obtain ⟨n, hn, hsc⟩ := matchesB_leaf hm
        show lookupN (sortGo (f + 1) m i) k = _
        simp only [idsOf, List.mem_singleton]
        cases n with
        | obj ni es => simp [isContainer] at hsc
        | arr ni its => simp [isContainer] at hsc
        | str ni v =>
          simp only [sortGo, hn]
          by_cases hk : k = i
          · subst hk
            rw [if_pos rfl, hn]
            rfl
          · rw [if_neg hk]
        | num ni v =>
          simp only [sortGo, hn]
          by_cases hk : k = i
          · subst hk
            rw [if_pos rfl, hn]
            rfl
          · rw [if_neg hk]
        | bool ni v =>
          simp only [sortGo, hn]
          by_cases hk : k = i
          · subst hk
            rw [if_pos rfl, hn]
            rfl
          · rw [if_neg hk]
        | null ni =>
          simp only [sortGo, hn]
          by_cases hk : k = i
          · subst hk
            rw [if_pos rfl, hn]
            rfl
          · rw [if_neg hk]
      | branch i cs =>
        obtain ⟨n, hn, hcont, hperm, hl⟩ := matchesB_branch hm
        have hnd' : i ∉ idsOfL cs ∧ (idsOfL cs).Nodup := by
          simpa [idsOf, List.nodup_cons] using hnd
        have hlencs : ∀ t' ∈ cs, (idsOf t').length ≤ f := by
          intro t' ht'
          have h1 := len_idsOf_le_of_mem ht'
          have h2 : (idsOf (DTree.branch i cs)).length = (idsOfL cs).length + 1 := by
            simp [idsOf]
          omega
        cases n with
        | obj ni es =>
          have hpermE : (es.map Prod.snd).Perm (cs.map DTree.root) := hperm
          have hpermS : ((sortEntries es).map Prod.snd).Perm (cs.map DTree.root) :=
            ((sortEntries_perm es).map Prod.snd).trans hpermE
          obtain ⟨ts', hcs_ts', hfa'⟩ := forall2_of_perm hpermS.symm (forall2_map_root cs)
          show lookupN (sortGo (f + 1) m i) k = _
          simp only [sortGo, hn]
          rw [show ((sortEntries es).foldl (fun acc e => sortGo f acc e.2)
                (insertN m i (.obj ni (sortEntries es))))
              = (((sortEntries es).map Prod.snd).foldl (fun acc r => sortGo f acc r)
                (insertN m i (.obj ni (sortEntries es)))) from (List.foldl_map _ _ _ _).symm]
          rw [foldl_rel (fun acc r => sortGo f acc r) (fun acc t' => sortGo f acc t'.root)
            (fun c a b hab => by rw [hab]) hfa' _]
          have hms' : ∀ t' ∈ ts',
              matchesB (insertN m i (.obj ni (sortEntries es))) t' = true := by
            intro t' ht'
            refine matchesB_congr t' m _ ?_ (matchesL_mem hl t' (hcs_ts'.symm.subset ht'))
            intro x hx
            have hxcs : x ∈ idsOfL cs := mem_idsOfL_of_mem (hcs_ts'.symm.subset ht') x hx
            have hxi : ¬ i = x := fun h => hnd'.1 (h ▸ hxcs)
            rw [lookup_insertN, if_neg hxi]
          have hIH := IHL ts' (insertN m i (.obj ni (sortEntries es))) hms'
            ((perm_idsOfL hcs_ts').nodup_iff.mp hnd'.2)
            (fun t' ht' => hlencs t' (hcs_ts'.symm.subset ht'))
          rw [hIH k]
          have hmemiff : k ∈ idsOfL ts' ↔ k ∈ idsOfL cs :=
            ((perm_idsOfL hcs_ts').mem_iff).symm
          by_cases hk : k = i
          · subst hk
            have hknotts : k ∉ idsOfL ts' := fun h => hnd'.1 (hmemiff.mp h)
            rw [if_neg hknotts, lookup_insertN, if_pos rfl,
              if_pos (show k ∈ idsOf (DTree.branch k cs) by simp [idsOf]), hn]
            rfl
          · by_cases hkc : k ∈ idsOfL cs
            · rw [if_pos (hmemiff.mpr hkc), lookup_insertN, if_neg (fun h => hk h.symm),
                if_pos (show k ∈ idsOf (DTree.branch i cs) by simp [idsOf, hkc])]
            · have hknotts : k ∉ idsOfL ts' := fun h => hkc (hmemiff.mp h)
              rw [if_neg hknotts, lookup_insertN, if_neg (fun h => hk h.symm),
                if_neg (show k ∉ idsOf (DTree.branch i cs) by simp [idsOf, hk, hkc])]
        | arr ni its =>
          have hpermE : its.Perm (cs.map DTree.root) := hperm
          obtain ⟨ts', hcs_ts', hfa'⟩ := forall2_of_perm hpermE.symm (forall2_map_root cs)
          show lookupN (sortGo (f + 1) m i) k = _
          simp only [sortGo, hn]
          rw [foldl_rel (fun acc r => sortGo f acc r) (fun acc t' => sortGo f acc t'.root)
            (fun c a b hab => by rw [hab]) hfa' _]
          have hIH := IHL ts' m
            (fun t' ht' => matchesL_mem hl t' (hcs_ts'.symm.subset ht'))
            ((perm_idsOfL hcs_ts').nodup_iff.mp hnd'.2)
            (fun t' ht' => hlencs t' (hcs_ts'.symm.subset ht'))
          rw [hIH k]
          have hmemiff : k ∈ idsOfL ts' ↔ k ∈ idsOfL cs :=
            ((perm_idsOfL hcs_ts').mem_iff).symm
          by_cases hk : k = i
          · subst hk
            have hknotts : k ∉ idsOfL ts' := fun h => hnd'.1 (hmemiff.mp h)
            rw [if_neg hknotts,
              if_pos (show k ∈ idsOf (DTree.branch k cs) by simp [idsOf]), hn]
            rfl
          · by_cases hkc : k ∈ idsOfL cs
            · rw [if_pos (hmemiff.mpr hkc),
                if_pos (show k ∈ idsOf (DTree.branch i cs) by simp [idsOf, hkc])]
            · have hknotts : k ∉ idsOfL ts' := fun h => hkc (hmemiff.mp h)
              rw [if_neg hknotts,
                if_neg (show k ∉ idsOf (DTree.branch i cs) by simp [idsOf, hk, hkc])]
        | str ni v => simp [isContainer] at hcont
        | num ni v => simp [isContainer] at hcont
        | bool ni v => simp [isContainer] at hcont
        | null ni => simp [isContainer] at hcont
    refine ⟨T, ?_⟩
    intro ts
    induction ts with
    | nil =>
      intro m _ _ _ k
      simp [idsOfL]
    | cons t ts ihts =>
      intro m hms hnd hlens k
      simp only [List.foldl_cons]
      have hndt : (idsOf t).Nodup := by
        rw [idsOfL] at hnd
        exact hnd.of_append_left
      have hdisj : ∀ x ∈ idsOfL ts, x ∉ idsOf t := by
        rw [idsOfL] at hnd
        intro x hx hxt
        exact (List.disjoint_of_nodup_append hnd) hxt hx
      have h1 := T t m (hms t (List.mem_cons_self _ _)) hndt (hlens t (List.mem_cons_self _ _))
      have hms' : ∀ t' ∈ ts, matchesB (sortGo (f + 1) m t.root) t' = true := by
        intro t' ht'
        refine matchesB_congr t' m _ ?_ (hms t' (List.mem_cons_of_mem _ ht'))
        intro x hx
        rw [h1 x, if_neg (hdisj x (mem_idsOfL_of_mem ht' x hx))]
      have hnd' : (idsOfL ts).Nodup := by
        rw [idsOfL] at hnd
        exact hnd.of_append_right
      have h2 := ihts (sortGo (f + 1) m t.root) hms' hnd'
        (fun t' ht' => hlens t' (List.mem_cons_of_mem _ ht')) k
      rw [h2]
      simp only [idsOfL, List.mem_append]
      by_cases hk1 : k ∈ idsOfL ts
      · have hk1t : k ∉ idsOf t := hdisj k hk1
        rw [if_pos hk1, if_pos (Or.inr hk1), h1 k, if_neg hk1t]
      · by_cases hk2 : k ∈ idsOf t
        · rw [if_neg hk1, if_pos (Or.inl hk2), h1 k, if_pos hk2]
        · rw [if_neg hk1,
            if_neg (show ¬ (k ∈ idsOf t ∨ k ∈ idsOfL ts) from fun h => h.elim hk2 hk1),
            h1 k, if_neg hk2]

/-- C6 witness: the push law instantiated on a concrete state, document and
successful parse. -/
theorem claim_C6_witness :
    (finalizeDocumentChange wState wDoc none).redoStack = [] ∧
    (editorReducer wParseOk wState (.loadText "null")).undoStack =
      snapshotState wState :: wState.undoStack.take 49 :=
  ⟨(claim_C6_history_push wState wDoc none).2.1,
   ((claim_C6_history_push wState wDoc none).2.2.2.2.2.2.2.2 wParseOk "null" .null rfl).1⟩

theorem orElse_self (o : Option Nat) : (o.orElse fun _ => o) = o := by
  cases o <;> rfl

theorem docLookup_of_doc {s : EditorState} {d : DocumentState} (h : s.doc = some d) (k : Nat) :
    docLookup s k = lookupN d.nodes k := by
  unfold docLookup
  rw [h]

theorem map_sortNode1_idem (o : Option JsonNode) :
    (o.map sortNode1).map sortNode1 = o.map sortNode1 := by
  cases o with
  | none => rfl
  | some n => simp [sortNode1_idem]

theorem sortKeys_doc_eq {s : EditorState} {d : DocumentState} {sc : SortScope} {r : Nat}
    (hdoc : s.doc = some d) (hroot : rootOfScope s d sc = some r) :
    (sortKeys s sc).doc = some { d with nodes := sortGo (d.nodes.length + 1) d.nodes r } ∧
    (sortKeys s sc).selectedId = s.selectedId := by
  cases sc with
  | all =>
    have hr : d.rootId = r := by simpa [rootOfScope] using hroot
    subst hr
    unfold sortKeys
    rw [hdoc]
    dsimp only
    refine ⟨(finalize_proj _ _ _).1, ?_⟩
    rw [(finalize_proj _ _ _).2.2.2.2.1, orElse_self]
  | selected =>
    have hr : s.selectedId = some r := by simpa [rootOfScope] using hroot
    unfold sortKeys
    rw [hdoc]
    dsimp only
    rw [hr]
    dsimp only
    refine ⟨(finalize_proj _ _ _).1, ?_⟩
    rw [(finalize_proj _ _ _).2.2.2.2.1]
    rw [hr]
    rfl

theorem sortKeys_cases (s₂ : EditorState) (sc₂ : SortScope) :
    sortKeys s₂ sc₂ = s₂ ∨
    ∃ d₂ M, s₂.doc = some d₂ ∧ (sortKeys s₂ sc₂).doc = some { d₂ with nodes := M } ∧
      SApprox d₂.nodes M := by
  cases hdoc2 : s₂.doc with
  | none =>
    left
    unfold sortKeys
    rw [hdoc2]
  | some d₂ =>
    right
    cases sc₂ with
    | all =>
      refine ⟨d₂, sortGo (d₂.nodes.length + 1) d₂.nodes d₂.rootId, rfl, ?_,
        sortGo_sapprox _ _ _⟩
      unfold sortKeys
      rw [hdoc2]
      dsimp only
      exact (finalize_proj _ _ _).1
    | selected =>
      cases hsel : s₂.selectedId with
      | none =>
        refine ⟨d₂, d₂.nodes, rfl, ?_, sapprox_refl _⟩
        unfold sortKeys
        rw [hdoc2]
        dsimp only
        rw [hsel]
        dsimp only
        exact (finalize_proj _ _ _).1
      | some sid =>
        refine ⟨d₂, sortGo (d₂.nodes.length + 1) d₂.nodes sid, rfl, ?_,
          sortGo_sapprox _ _ _⟩
        unfold sortKeys
        rw [hdoc2]
        dsimp only
        rw [hsel]
        dsimp only
        exact (finalize_proj _ _ _).1

/-- C7: for every document and every sort-keys operation (either scope), the
operation only replaces some Object nodes' entry lists by their stable sort
by key — every node that is not an Object (arrays keep their item order,
scalars keep their payloads) is unchanged (first conjunct, for arbitrary
states and scopes); on a region spanned by a duplicate-free tree rooted at
the scope's root, every node in the region gets exactly `sortNode1` applied
and every node outside it is untouched (second and third conjuncts); the
operation is idempotent: sorting twice in the same scope yields the same
node for every id as sorting once (fourth conjunct); and the entry
reordering is a genuine sort: a permutation of the original entries that is
sorted by the key ordering (fifth conjunct). -/
theorem claim_C7_sort_keys (s : EditorState) (d : DocumentState) (sc : SortScope) (r : Nat)
    (t : DTree)
    (hdoc : s.doc = some d) (hroot : rootOfScope s d sc = some r)
    (hm : matchesB d.nodes t = true) (htr : t.root = r) (hnd : (idsOf t).Nodup) :
    (∀ (s₂ : EditorState) (sc₂ : SortScope) (k : Nat) (n : JsonNode),
      docLookup s₂ k = some n → isObjNode n = false →
      docLookup (sortKeys s₂ sc₂) k = some n) ∧
    (∀ k ∈ idsOf t, docLookup (sortKeys s sc) k = (lookupN d.nodes k).map sortNode1) ∧
    (∀ k, k ∉ idsOf t → docLookup (sortKeys s sc) k = lookupN d.nodes k) ∧
    (∀ k, docLookup (sortKeys (sortKeys s sc) sc) k = docLookup (sortKeys s sc) k) ∧
    (∀ es : List (String × Nat), (sortEntries es).Perm es ∧
      List.Pairwise (fun a b => entryLe a b = true) (sortEntries es)) := by
  have hfuel : (idsOf t).length ≤ d.nodes.length + 1 := by
    have := ids_len_le_map_len hm hnd
    omega
  have hchar0 := (sortSpec (d.nodes.length + 1)).1 t d.nodes hm hnd hfuel
  rw [htr] at hchar0
  have hkd := sortKeys_doc_eq hdoc hroot
  refine ⟨?_, ?_, ?_, ?_, fun es => ⟨sortEntries_perm es, sortEntries_sorted es⟩⟩
  · intro s₂ sc₂ k n hL hobj
    rcases sortKeys_cases s₂ sc₂ with heq | ⟨d₂, M, hd2, hd2', happ⟩
    · rw [heq]
      exact hL
    · rw [docLookup_of_doc hd2' k]
      dsimp only
      rw [docLookup_of_doc hd2 k] at hL
      rcases happ k with h' | ⟨i, es, h1, h2⟩
      · rw [h', hL]
      · rw [hL] at h1
        injection h1 with h1
        subst h1
        simp [isObjNode] at hobj
  · intro k hk
    rw [docLookup_of_doc hkd.1 k]
    dsimp only
    rw [hchar0 k, if_pos hk]
  · intro k hk
    rw [docLookup_of_doc hkd.1 k]
    dsimp only
    rw [hchar0 k, if_neg hk]
  · have hroot' : rootOfScope (sortKeys s sc)
        { d with nodes := sortGo (d.nodes.length + 1) d.nodes r } sc = some r := by
      cases sc with
      | all =>
        have hr : d.rootId = r := by simpa [rootOfScope] using hroot
        simp only [rootOfScope]
        rw [hr]
      | selected =>
        simp only [rootOfScope]
        rw [hkd.2]
        simpa [rootOfScope] using hroot
    have hm2 : matchesB (sortGo (d.nodes.length + 1) d.nodes r) t = true := by
      refine matches_sortMap t d.nodes _ ?_ hm
      intro k hk
      rw [hchar0 k, if_pos hk]
    have hfuel2 : (idsOf t).length ≤ (sortGo (d.nodes.length + 1) d.nodes r).length + 1 := by
      have := ids_len_le_map_len hm2 hnd
      omega
    have hchar2 := (sortSpec ((sortGo (d.nodes.length + 1) d.nodes r).length + 1)).1 t _
      hm2 hnd hfuel2
    rw [htr] at hchar2
    have hkd2 := sortKeys_doc_eq hkd.1 hroot'
    intro k
    rw [docLookup_of_doc hkd2.1 k, docLookup_of_doc hkd.1 k]
    dsimp only
    rw [hchar2 k]
    by_cases hk : k ∈ idsOf t
    · rw [if_pos hk, hchar0 k, if_pos hk, map_sortNode1_idem]
    · rw [if_neg hk]

/-- C7 witness: the sort-keys theorem instantiated on the concrete
document/state (root object spanned by a concrete tree, whole-document
scope), with the subtree conjunct read off at the root id. -/
theorem claim_C7_witness :
    matchesB wDoc.nodes (DTree.branch 0 [DTree.leaf 1]) = true ∧
    docLookup (sortKeys wState .all) 0 = (lookupN wDoc.nodes 0).map sortNode1 :=
  ⟨by decide,
   (claim_C7_sort_keys wState wDoc .all 0 (DTree.branch 0 [DTree.leaf 1]) rfl rfl
     (by decide) rfl (by decide)).2.1 0 (by decide)⟩

end JE
